import Mathlib

/-!
The wtsh terminal shell: terminal input decoder, input-line editor, render pass and command executor

A shallow embedding of the Go sources

* `internal/termin/termin.go` (event types),
* `internal/inputstream/internal/termread/termread.go` (`Consumer.Poll`),
* `internal/wtshapp/wtshapp.go` (`inputBox.Update`, `inputBox.render`, `logs.render`,
  `Program.invalidate`, `Program.Run`, `Program.HandleMessage`),
* `internal/resizestream/resizestream.go` (`Listener.Run`),
* `internal/ansiesc/ansiesc.go`, `internal/wtshmsg/wtshmsg.go`,
* `internal/wtshexec/wtshexec.go` (`ConnectionHandler.handle`),

followed by theorems about them.

Conventions.  Go `int` and `rune` values are `Int`; loop indices that only count
upwards from zero are `Nat`.  A Go `string` is its sequence of bytes, `List Nat`.
A Go run-time panic (index or slice bound out of range) is the fault
`Fault.outOfRange`; loops are driven by a fuel argument and running out of fuel is
the distinct fault `Fault.outOfFuel`.
-/

namespace Wtsh

/-! ## Faults -/

/-- The two ways an embedded function can fail to return a value. -/
inductive Fault where
  /-- Go run-time panic: index or slice bound out of range. -/
  | outOfRange
  /-- The fuel of the embedding ran out (not a behaviour of the Go code). -/
  | outOfFuel
  deriving DecidableEq, Repr

deriving instance DecidableEq for Except

/-- Go `s[i]` on a slice: panics when `i` is not below `len(s)`. -/
def index {α : Type} (s : List α) (i : Nat) : Except Fault α :=
  match s[i]? with
  | some a => .ok a
  | none => .error .outOfRange

/-! ## `termin`: event types -/

/-- Go `termin.KeyType` (`KeyCharacter = -1`, `KeyUp = 0`, ..., `KeyTab = 8`). -/
inductive KeyType where
  | KeyCharacter
  | KeyUp
  | KeyDown
  | KeyRight
  | KeyLeft
  | KeyEscape
  | KeyBackspace
  | KeyEnter
  | KeyQuit
  | KeyTab
  deriving DecidableEq, Repr

/-- Go `termin.Key`; unset fields have Go's zero values. -/
structure Key where
  Type_ : KeyType
  Shift : Bool := false
  Alt : Bool := false
  Control : Bool := false
  Rune : Int := 0
  deriving DecidableEq, Repr

/-- Go `termin.MouseKeyType`. -/
inductive MouseKeyType where
  | MouseLeft
  | MouseRight
  | MouseMiddle
  deriving DecidableEq, Repr

/-- Go `termin.ScrollDirection`. -/
inductive ScrollDirection where
  | ScrollUp
  | ScrollDown
  deriving DecidableEq, Repr

/-- Go `termin.Point`. -/
structure Point where
  X : Int
  Y : Int
  deriving DecidableEq, Repr

/-- Go `termin.Modifiers`; the zero value has every flag false. -/
structure Modifiers where
  Shift : Bool := false
  Alt : Bool := false
  Control : Bool := false
  deriving DecidableEq, Repr

/-- Go `termin.MousePress`. -/
structure MousePress where
  Point : Point
  Key : MouseKeyType
  Modifiers : Modifiers
  deriving DecidableEq, Repr

/-- Go `termin.MouseScroll`. -/
structure MouseScroll where
  Point : Point
  Modifiers : Modifiers
  Direction : ScrollDirection
  deriving DecidableEq, Repr

/-- Go `termin.MouseRelease`. -/
structure MouseRelease where
  Point : Point
  Modifiers : Modifiers
  deriving DecidableEq, Repr

/-- Go `termin.Event` is the empty interface; the decoder stores these four types in it. -/
inductive Event where
  | key (k : Key)
  | mousePress (e : MousePress)
  | mouseScroll (e : MouseScroll)
  | mouseRelease (e : MouseRelease)
  deriving DecidableEq, Repr

/-! ## `unicode/utf8.DecodeRune` (Go standard library) -/

/-- Go `utf8.RuneError`, U+FFFD. -/
def RuneError : Int := 65533

/-- The part of Go `utf8.DecodeRune` after the first byte `p0` has fixed the size `sz`
of the encoding and the accepted range `lo..hi` of the second byte; `n` is `len(p)` and
`rest` is `p[1:]`. -/
def decodeMulti (p0 sz lo hi n : Nat) (rest : List Nat) : Int × Nat :=
  if n < sz then (RuneError, 1)
  else
    match rest with
    | [] => (RuneError, 1)
    | b1 :: rest1 =>
      if b1 < lo ∨ hi < b1 then (RuneError, 1)
      else if sz ≤ 2 then ((((p0 &&& 31) <<< 6 ||| (b1 &&& 63) : Nat) : Int), 2)
      else
        match rest1 with
        | [] => (RuneError, 1)
        | b2 :: rest2 =>
          if b2 < 128 ∨ 191 < b2 then (RuneError, 1)
          else if sz ≤ 3 then
            ((((p0 &&& 15) <<< 12 ||| (b1 &&& 63) <<< 6 ||| (b2 &&& 63) : Nat) : Int), 3)
          else
            match rest2 with
            | [] => (RuneError, 1)
            | b3 :: _ =>
              if b3 < 128 ∨ 191 < b3 then (RuneError, 1)
              else
                ((((p0 &&& 7) <<< 18 ||| (b1 &&& 63) <<< 12 ||| (b2 &&& 63) <<< 6
                  ||| (b3 &&& 63) : Nat) : Int), 4)

/-- Go `utf8.DecodeRune(p)`: the first rune of `p` and its width in bytes; an invalid or
truncated encoding gives `(RuneError, 1)`; an empty slice gives `(RuneError, 0)`.
Follows the table-driven implementation of the standard library: the first byte fixes
the size (table `first`) and the accepted range of the second byte (`acceptRanges`). -/
def DecodeRune (p : List Nat) : Int × Nat :=
  match p with
  | [] => (RuneError, 0)
  | p0 :: rest =>
    if p0 < 128 then ((p0 : Int), 1)
    else if p0 < 194 ∨ 244 < p0 then (RuneError, 1)
    else
      let sz : Nat := if p0 < 224 then 2 else if p0 < 240 then 3 else 4
      let lo : Nat := if p0 = 224 then 160 else if p0 = 240 then 144 else 128
      let hi : Nat := if p0 = 237 then 159 else if p0 = 244 then 143 else 191
      decodeMulti p0 sz lo hi p.length rest

/-! ## `termread.Consumer.Poll` -/

/-- First loop of `Poll`: `for i := 0; i < len(b); { r, w := utf8.DecodeRune(b[i:]); ... }`,
from index `i` with the runes collected so far. -/
def runesLoop : Nat → List Nat → Nat → List Int → Except Fault (List Int)
  | 0, b, i, runes => if i < b.length then .error .outOfFuel else .ok runes
  | fuel + 1, b, i, runes =>
    if i < b.length then
      let rw := DecodeRune (b.drop i)
      runesLoop fuel b (i + rw.2) (runes ++ [rw.1])
    else .ok runes

/-- Go `b & m` for an `int32` value `b` and a non-negative constant mask `m`: the AND is
taken on the two's-complement representation of `b`. -/
def and32 (b : Int) (m : Nat) : Nat :=
  (b % 4294967296).toNat &&& m

/-- The `case 77` branch of `Poll` (X10 mouse report), entered after `i += 2`; returns
the index after `i += 3` and the extended event list. -/
def pollMouse (runes : List Int) (i : Nat) (keys : List Event) :
    Except Fault (Nat × List Event) := do
  let x ← index runes (i + 2)
  let y ← index runes (i + 3)
  let p : Point := { X := x - 1, Y := y - 1 }
  let b ← index runes (i + 1)
  let b := b - 32
  let i := i + 3
  let mods : Modifiers :=
    { Control := decide (and32 b (1 <<< 2) ≠ 0)
      Alt := decide (and32 b (1 <<< 3) ≠ 0)
      Shift := decide (and32 b (1 <<< 4) ≠ 0) }
  if and32 b (1 <<< 6) ≠ 0 then
    if and32 b 3 = 0 then
      return (i, keys ++ [.mouseScroll { Point := p, Modifiers := mods, Direction := .ScrollUp }])
    else if and32 b 3 = 1 then
      return (i, keys ++ [.mouseScroll { Point := p, Modifiers := mods, Direction := .ScrollDown }])
    else return (i, keys)
  else
    if and32 b 3 = 0 then
      return (i, keys ++ [.mousePress { Point := p, Modifiers := mods, Key := .MouseLeft }])
    else if and32 b 3 = 1 then
      return (i, keys ++ [.mousePress { Point := p, Modifiers := mods, Key := .MouseMiddle }])
    else if and32 b 3 = 2 then
      return (i, keys ++ [.mousePress { Point := p, Modifiers := mods, Key := .MouseRight }])
    else if and32 b 3 = 3 then
      return (i, keys ++ [.mouseRelease { Point := p, Modifiers := mods }])
    else return (i, keys)

/-- The `case 27` branch of `Poll`.  The first `switch j` of the source (`case 91`,
`case 49` with an empty body) has no effect and is omitted. -/
def pollEscape (runes : List Int) (i : Nat) (keys : List Event) :
    Except Fault (Nat × List Event) := do
  if runes.length = 1 then
    return (i, keys ++ [.key { Type_ := .KeyEscape }])
  else
    let j ← index runes (i + 1)
    let k ← index runes (i + 2)
    let i := i + 2
    if j = 91 then
      if k = 77 then pollMouse runes i keys
      else if k = 65 then return (i, keys ++ [.key { Type_ := .KeyUp }])
      else if k = 66 then return (i, keys ++ [.key { Type_ := .KeyDown }])
      else if k = 67 then return (i, keys ++ [.key { Type_ := .KeyRight }])
      else if k = 68 then return (i, keys ++ [.key { Type_ := .KeyLeft }])
      else return (i, keys)
    else return (i, keys)

/-- One iteration of the second loop of `Poll` at index `i` (the body of the `for`,
without the `i++`): the index the body leaves and the extended event list. -/
def pollStep (runes : List Int) (i : Nat) (keys : List Event) :
    Except Fault (Nat × List Event) := do
  let r ← index runes i
  if r = 3 then return (i, keys ++ [.key { Type_ := .KeyQuit }])
  else if r = 9 then return (i, keys ++ [.key { Type_ := .KeyTab }])
  else if r = 13 then return (i, keys ++ [.key { Type_ := .KeyEnter }])
  else if r = 27 then pollEscape runes i keys
  else if r = 127 then return (i, keys ++ [.key { Type_ := .KeyBackspace }])
  else return (i, keys ++ [.key { Type_ := .KeyCharacter, Rune := r }])

/-- The event `pollStep` appends for a rune other than ESC (27): the cases 3, 9, 13, 127
and `default` of the `switch r`. -/
def plainKey (r : Int) : Event :=
  if r = 3 then .key { Type_ := .KeyQuit }
  else if r = 9 then .key { Type_ := .KeyTab }
  else if r = 13 then .key { Type_ := .KeyEnter }
  else if r = 127 then .key { Type_ := .KeyBackspace }
  else .key { Type_ := .KeyCharacter, Rune := r }

/-- Second loop of `Poll`: `for i := 0; i < len(runes); i++ { ... }`. -/
def pollLoop : Nat → List Int → Nat → List Event → Except Fault (List Event)
  | 0, runes, i, keys => if i < runes.length then .error .outOfFuel else .ok keys
  | fuel + 1, runes, i, keys =>
    if i < runes.length then
      match pollStep runes i keys with
      | .ok (i1, keys1) => pollLoop fuel runes (i1 + 1) keys1
      | .error e => .error e
    else .ok keys

/-- The event loop of `Poll` on the decoded runes.  Every iteration advances `i` by at
least one, so `len(runes)` iterations are enough. -/
def pollRunes (runes : List Int) : Except Fault (List Event) :=
  pollLoop runes.length runes 0 []

/-- Go `Consumer.Poll` after a successful read of the chunk `b`: decode the bytes to
runes, then the runes to events.  Each byte starts at most one rune, so `len(b)`
iterations are enough for the first loop. -/
def Poll (b : List Nat) : Except Fault (List Event) :=
  match runesLoop b.length b 0 [] with
  | .ok runes => pollRunes runes
  | .error e => .error e

/-! ## `wtshapp`: the input-line editor -/

/-- Go `s[i]` with an `int` index: panics unless `0 <= i < len(s)`. -/
def indexInt {α : Type} (s : List α) (i : Int) : Except Fault α :=
  if 0 ≤ i then index s i.toNat else .error .outOfRange

/-- Go `s[:n]` on a string: panics unless `0 <= n <= len(s)`. -/
def sliceTo (s : List Nat) (n : Int) : Except Fault (List Nat) :=
  if 0 ≤ n ∧ n ≤ (s.length : Int) then .ok (s.take n.toNat) else .error .outOfRange

/-- Go `s[n:]` on a string: panics unless `0 <= n <= len(s)`. -/
def sliceFrom (s : List Nat) (n : Int) : Except Fault (List Nat) :=
  if 0 ≤ n ∧ n ≤ (s.length : Int) then .ok (s.drop n.toNat) else .error .outOfRange

/-- Go conversion `string(r)` of a rune: its UTF-8 encoding, and the encoding of U+FFFD
(`EF BF BD`) for a value that is not a valid code point (negative, above U+10FFFF, or a
surrogate). -/
def runeString (r : Int) : List Nat :=
  if r < 0 ∨ 1114111 < r ∨ (55296 ≤ r ∧ r ≤ 57343) then [239, 191, 189]
  else
    let n := r.toNat
    if n < 128 then [n]
    else if n < 2048 then [192 ||| (n >>> 6), 128 ||| (n &&& 63)]
    else if n < 65536 then
      [224 ||| (n >>> 12), 128 ||| ((n >>> 6) &&& 63), 128 ||| (n &&& 63)]
    else
      [240 ||| (n >>> 18), 128 ||| ((n >>> 12) &&& 63), 128 ||| ((n >>> 6) &&& 63),
        128 ||| (n &&& 63)]

/-- Go `wtshapp.model`. -/
structure model where
  height : Int
  width : Int
  messages : List (List Nat)
  deriving DecidableEq, Repr

/-- Go `wtshapp.inputBox`, without the logger, the unused `cmdch` and the `submit`
callback: the calls of `submit` are returned by `Update` as a list of `(p, s)` pairs. -/
structure inputBox where
  index : Int
  Content : List Nat
  prompt : List Nat
  history : List (List Nat)
  historyIndex : Int
  deriving DecidableEq, Repr

/-- Go `newInputbox`: prompt `"$ "`, everything else empty or zero. -/
def newInputbox : inputBox :=
  { index := 0, prompt := [36, 32], Content := [], history := [], historyIndex := 0 }

/-- Go `inputBox.Update(e, m)`: the box after the event together with the calls
`b.submit(p, s)` it made, in order; a fault when a slice or index expression panics. -/
def inputBox.Update (b : inputBox) (e : Event) (m : model) :
    Except Fault (inputBox × List (List Nat × List Nat)) :=
  match e with
  | .key v =>
    match v.Type_ with
    | .KeyEnter =>
      let r : inputBox × List (List Nat × List Nat) :=
        if b.Content.length > 0 then
          ({ b with history := b.history ++ [b.Content] }, [(b.prompt, b.Content)])
        else (b, [])
      .ok ({ r.1 with index := 0, Content := [], historyIndex := 0 }, r.2)
    | .KeyUp =>
      if b.history.length = 0 then .ok (b, [])
      else do
        let historyIndex :=
          if b.historyIndex < (b.history.length : Int) then b.historyIndex + 1
          else b.historyIndex
        let i := (b.history.length : Int) - historyIndex
        let content ← indexInt b.history i
        return ({ b with historyIndex := historyIndex, Content := content,
                         index := (content.length : Int) }, [])
    | .KeyDown =>
      if b.historyIndex = 0 then .ok (b, [])
      else do
        let historyIndex := b.historyIndex - 1
        let content ←
          if historyIndex > 0 then
            indexInt b.history ((b.history.length : Int) - historyIndex)
          else .ok []
        return ({ b with historyIndex := historyIndex, Content := content,
                         index := (content.length : Int) }, [])
    | .KeyRight =>
      if b.index < (b.Content.length : Int) then .ok ({ b with index := b.index + 1 }, [])
      else .ok (b, [])
    | .KeyLeft =>
      if b.index > 0 then .ok ({ b with index := b.index - 1 }, [])
      else .ok (b, [])
    | .KeyCharacter => do
      let pre ← sliceTo b.Content b.index
      let post ← sliceFrom b.Content b.index
      let content := pre ++ runeString v.Rune ++ post
      if (content.length : Int) + (b.prompt.length : Int) > m.width then
        let content ← sliceTo content m.width
        return ({ b with Content := content }, [])
      else
        return ({ b with Content := content, index := b.index + 1 }, [])
    | .KeyBackspace =>
      if b.index = 0 then .ok (b, [])
      else do
        let pre ← sliceTo b.Content (b.index - 1)
        let post ← sliceFrom b.Content b.index
        return ({ b with Content := pre ++ post, index := b.index - 1 }, [])
    | _ => .ok (b, [])
  | _ => .ok (b, [])

/-- The loop `for _, e := range events { ...; p.box.Update(e, p.model) }` of
`Program.Input`, restricted to the box: the events are applied in order and the `submit`
calls are collected.  (`Update` reads only `m.width`, which `submit` does not change.) -/
def inputBox.Updates (b : inputBox) (m : model) :
    List Event → Except Fault (inputBox × List (List Nat × List Nat))
  | [] => .ok (b, [])
  | e :: es =>
    match b.Update e m with
    | .ok (b1, calls1) =>
      match inputBox.Updates b1 m es with
      | .ok (b2, calls2) => .ok (b2, calls1 ++ calls2)
      | .error f => .error f
    | .error f => .error f

/-- The key event the decoder emits for a typed character `r`. -/
def charKey (r : Int) : Event :=
  .key { Type_ := .KeyCharacter, Rune := r }

/-! ## `wtshapp`: the invalidation signal and the actor loop -/

/-- Go `wtshapp.Program`, reduced to what the actor loop uses.  The channel
`invalidated` (`make(chan struct{}, 1)`) is the flag `invalidated`: true when its single
slot is full.  `renders` counts the calls of `p.render()` made so far. -/
structure Program where
  invalidated : Bool
  model : model
  box : inputBox
  renders : Nat
  deriving DecidableEq, Repr

/-- Go `Program.invalidate`: `select { case p.invalidated <- struct{}{}: default: }`.
The send goes through when the slot is free and is dropped when it is full. -/
def Program.invalidate (p : Program) : Program :=
  if p.invalidated = false then { p with invalidated := true } else p

/-- Go `Program.render`, as far as the loop is concerned: one more render pass. -/
def Program.render (p : Program) : Program :=
  { p with renders := p.renders + 1 }

/-- The case the outer `select` of `Program.Run` takes in one iteration. -/
inductive Select where
  /-- `case <-done`. -/
  | done
  /-- `case <-p.invalidated`. -/
  | invalidated
  /-- `case a := <-p.actions`, with the closure received. -/
  | action (a : Program → Program)

/-- What one iteration of the loop of `Program.Run` does. -/
inductive Iteration where
  /-- `return nil`. -/
  | returned
  /-- The chosen case cannot fire (nothing to receive). -/
  | notReady
  /-- The loop goes round again in this state. -/
  | next (p : Program)

/-- One iteration of `for { select { ... } }` in `Program.Run` with the given case. -/
def Program.iterate (p : Program) : Select → Iteration
  | .done => .returned
  | .invalidated =>
    if p.invalidated then .next ({ p with invalidated := false }).render
    else .notReady
  | .action a =>
    let p1 := a p
    -- inner `select { case <-p.invalidated: p.render(); default: continue }`
    if p1.invalidated then .next ({ p1 with invalidated := false }).render
    else .next p1

/-- The key event the decoder emits for the key kind `t` (all other fields zero). -/
def keyOf (t : KeyType) : Event :=
  .key { Type_ := t }

/-- The events of typing the bytes of an ASCII line, one `Character` key per byte. -/
def typeLine (s : List Nat) : List Event :=
  s.map fun (x : Nat) => charKey (x : Int)

/-- The bounds of the editor state: `0 <= index <= len(Content)` and
`0 <= historyIndex <= len(history)`. -/
def inputBox.bounds (b : inputBox) : Prop :=
  0 ≤ b.index ∧ b.index ≤ (b.Content.length : Int) ∧
    0 ≤ b.historyIndex ∧ b.historyIndex ≤ (b.history.length : Int)

instance (b : inputBox) : Decidable b.bounds := by
  unfold inputBox.bounds
  infer_instance

/-- The loop of `Program.Run` driven by the sequence of cases its `select` takes: a case
that cannot fire is skipped (the `select` would not have taken it), `done` returns. -/
def Program.Run (p : Program) : List Select → Program
  | [] => p
  | c :: cs =>
    match p.iterate c with
    | .returned => p
    | .notReady => Program.Run p cs
    | .next q => Program.Run q cs

/-- A program state with nothing pending and no render pass made yet. -/
def idleProgram : Program :=
  { invalidated := false, model := { height := 24, width := 80, messages := [] },
    box := newInputbox, renders := 0 }

/-! ## `resizestream.Listener.Run` -/

/-- The loop of Go `Listener.Run` with the remembered `width`, `height`, driven by the
ticks that arrive before `ctx.Done()`: each tick carries the result of `term.GetSize`,
`none` for an error (logged, `continue`).  Returns the calls `Resize(w, h)`, in order. -/
def Listener.loop (width height : Int) : List (Option (Int × Int)) → List (Int × Int)
  | [] => []
  | none :: ticks => Listener.loop width height ticks
  | some (w, h) :: ticks =>
    if width = w ∧ height = h then Listener.loop width height ticks
    else (w, h) :: Listener.loop w h ticks

/-- Go `Listener.Run`: `var width, height int` start at zero. -/
def Listener.Run (ticks : List (Option (Int × Int))) : List (Int × Int) :=
  Listener.loop 0 0 ticks

/-! ## `ansiesc`, `termout` and the render pass -/

/-- Go `fmt.Sprintf("%d", n)`: the decimal digits of `n`, with a leading `-` when
negative. -/
def itoa (n : Int) : List Nat :=
  if n < 0 then 45 :: (Nat.toDigits 10 (-n).toNat).map Char.toNat
  else (Nat.toDigits 10 n.toNat).map Char.toNat

/-- Go `ansiesc.CSI`, `"\x1b["`. -/
def CSI : List Nat := [27, 91]

/-- Go `ansiesc.SetPosition(row, column)`: `CSI + fmt.Sprintf("%d;%df", row+1, column+1)`. -/
def SetPosition (row column : Int) : List Nat :=
  CSI ++ (itoa (row + 1) ++ [59] ++ itoa (column + 1) ++ [102])

/-- Go `ansiesc.ClearLine()`: `CSI + "2K"`. -/
def ClearLine : List Nat := CSI ++ [50, 75]

/-- Go `ansiesc.ClearToEndOfLine()`: `CSI + "K"`. -/
def ClearToEndOfLine : List Nat := CSI ++ [75]

/-- Go `utf8.RuneCountInString(s)`: the number of `DecodeRune` steps that consume `s`
(an invalid byte counts as one rune). -/
def RuneCountInString (s : List Nat) : Nat :=
  match runesLoop s.length s 0 [] with
  | .ok runes => runes.length
  | .error _ => 0

/-- Go `wtshapp.screen`, without the output buffer. -/
structure screen where
  height : Int
  width : Int
  deriving DecidableEq, Repr

/-- Go `inputBox.render(s)`: the string it prints with one `fmt.Fprint`. -/
def inputBox.render (b : inputBox) (s : screen) : List Nat :=
  SetPosition s.height 0 ++ ClearToEndOfLine ++ b.prompt ++ b.Content ++
    SetPosition s.height (b.index + (RuneCountInString b.prompt : Int))

/-- The loop of Go `logs.render`:
`for i, n := 0, len(m.messages)-1; i < space && n > -1; i, n = i+1, n-1 { ... }`.
The output is the sequence of writes made through the `termout.Writer`: per iteration
`SetCursor(space-(i+1), 0)`, `ClearLine()`, `WriteString(line)`. -/
def logsRenderLoop : Nat → Int → List (List Nat) → Int → Int → List (List Nat) →
    Except Fault (List (List Nat))
  | 0, space, _, i, n, out => if i < space ∧ n > -1 then .error .outOfFuel else .ok out
  | fuel + 1, space, messages, i, n, out =>
    if i < space ∧ n > -1 then
      match indexInt messages n with
      | .ok line =>
        logsRenderLoop fuel space messages (i + 1) (n - 1)
          (out ++ [SetPosition (space - (i + 1)) 0, ClearLine, line])
      | .error f => .error f
    else .ok out

/-- Go `logs.render(s, m)`: `space := m.height - 1`, then the loop, which runs at most
once per message. -/
def logs.render (m : model) : Except Fault (List (List Nat)) :=
  logsRenderLoop m.messages.length (m.height - 1) m.messages 0
    ((m.messages.length : Int) - 1) []

/-! ## `wtshexec`: the command executor -/

/-- An ASCII string literal as its bytes. -/
def ascii (s : String) : List Nat :=
  s.toList.map Char.toNat

/-- Go `strings.SplitN(s, " ", 2)`: `s` itself when it has no space, otherwise the part
before the first space and the part after it. -/
def SplitN2 (s : List Nat) : List (List Nat) :=
  match s.dropWhile (fun x => x != 32) with
  | [] => [s]
  | _ :: rest => [s.takeWhile (fun x => x != 32), rest]

/-- Go `wtshexec.state`: the three handles are `none` for a nil pointer and `some ()`
for a pointer returned by the database library. -/
structure state where
  conn : Option Unit
  home : List Nat
  session : Option Unit
  cursor : Option Unit
  deriving DecidableEq, Repr

/-- The state of a new `ConnectionHandler`: every field is Go's zero value. -/
def state.initial : state :=
  { conn := none, home := [], session := none, cursor := none }

/-- The cases of the `switch cmd` in `ConnectionHandler.handle`. -/
inductive Command where
  | connect
  | closeSession
  | closeCursor
  | drop
  | insert
  | remove
  | reset
  | setKey
  | setValue
  | search
  | searchAllNext
  | create
  | openCursor
  | openSession
  | disconnect
  | quit
  | invalid
  deriving DecidableEq, Repr

/-- The case of `switch cmd` that the command word selects; `invalid` is `default`. -/
def Command.ofWord (cmd : List Nat) : Command :=
  if cmd = ascii "connect" ∨ cmd = ascii "open" then .connect
  else if cmd = ascii "close-session" then .closeSession
  else if cmd = ascii "close-cursor" then .closeCursor
  else if cmd = ascii "drop" then .drop
  else if cmd = ascii "insert" then .insert
  else if cmd = ascii "remove" then .remove
  else if cmd = ascii "reset" then .reset
  else if cmd = ascii "set-key" then .setKey
  else if cmd = ascii "set-value" then .setValue
  else if cmd = ascii "search" then .search
  else if cmd = ascii "search-all-next" then .searchAllNext
  else if cmd = ascii "create" then .create
  else if cmd = ascii "open-cursor" then .openCursor
  else if cmd = ascii "open-session" then .openSession
  else if cmd = ascii "disconnect" ∨ cmd = ascii "close" then .disconnect
  else if cmd = ascii "quit" then .quit
  else .invalid

/-- The body of the selected case of `ConnectionHandler.handle`: the state after it and
whether `handle` returned `nil`.  `ok` says whether the calls into the database library
made by this command succeed.  The messages sent to the handler and the rows read are
left out; the commands that only use the cursor do not touch the state. -/
def handleCase (st : state) (args : List Nat) (ok : Bool) : Command → state × Bool
  | .connect =>
    if st.conn ≠ none then (st, false)
    else
      let home := (SplitN2 args).getD 0 []
      if ok then ({ st with conn := some (), home := home }, true) else (st, false)
  | .closeSession =>
    if st.session = none then (st, false)
    else if ok then ({ st with session := none }, true) else (st, false)
  | .closeCursor =>
    if st.cursor = none then (st, false)
    else if ok then ({ st with cursor := none }, true) else (st, false)
  | .drop => if st.session = none then (st, false) else (st, ok)
  | .insert =>
    if st.cursor = none then (st, false)
    else if (SplitN2 args).length < 2 then (st, false)
    else (st, ok)
  | .remove => if st.cursor = none then (st, false) else (st, ok)
  | .reset => if st.cursor = none then (st, false) else (st, ok)
  | .setKey => if st.cursor = none then (st, false) else (st, ok)
  | .setValue => if st.cursor = none then (st, false) else (st, ok)
  | .search => if st.cursor = none then (st, false) else (st, ok)
  | .searchAllNext => if st.cursor = none then (st, false) else (st, ok)
  | .create => if st.session = none then (st, false) else (st, ok)
  | .openCursor =>
    if st.session = none then (st, false)
    else if st.cursor ≠ none then (st, false)
    else if ok then ({ st with cursor := some () }, true) else (st, false)
  | .openSession =>
    if st.conn = none then (st, false)
    else if st.session ≠ none then (st, false)
    else if ok then ({ st with session := some () }, true) else (st, false)
  | .disconnect =>
    if st.conn = none then (st, false)
    else if ok then ({ st with conn := none, session := none, home := [] }, true)
    else (st, false)
  | .quit => (st, true)
  | .invalid => (st, false)

/-- Go `ConnectionHandler.handle(s)`: split off the command word, then the `switch`. -/
def handle (st : state) (s : List Nat) (ok : Bool) : state × Bool :=
  let parts := SplitN2 s
  let cmd := parts.getD 0 []
  let args := if parts.length > 1 then parts.getD 1 [] else []
  handleCase st args ok (Command.ofWord cmd)

/-- The commands received by `ConnectionHandler.Run`, handled in order; each comes with
the outcome of its database calls. -/
def handleAll (st : state) : List (List Nat × Bool) → state
  | [] => st
  | (s, ok) :: rest => handleAll (handle st s ok).1 rest

/-! ## `text/tabwriter` (Go standard library) -/

/-- A cell of the tabwriter: its bytes, its width (runes, less two for every escaped
segment, whose two `0xFF` marks are not counted) and whether a horizontal tab ended it. -/
structure Cell where
  text : List Nat
  width : Int
  htab : Bool
  deriving DecidableEq, Repr

/-- The cell made of `text` in which `nesc` escaped segments were closed. -/
def mkCell (text : List Nat) (nesc : Nat) (htab : Bool) : Cell :=
  { text := text, width := (RuneCountInString text : Int) - 2 * (nesc : Int), htab := htab }

/-- A line of the tabwriter: its cells, the last one being the text before the line end,
and whether a form feed ended it. -/
structure Line where
  cells : List Cell
  ff : Bool
  deriving DecidableEq, Repr

/-- The scanner of Go `tabwriter.Writer.Write` followed by `Flush`, without the flags
(none is set): outside an escaped segment `\t` and `\v` end a cell, `\n` and `\f` end a
cell and the line, `0xFF` opens an escaped segment that runs to the next `0xFF`; every
other byte joins the current cell.  `Flush` closes an open escaped segment and adds the
pending cell to the last line when it is not empty.  Arguments: inside an escaped
segment, escaped segments closed in the current cell, its text, the cells of the current
line, the bytes to read. -/
def tabwriterLines : Bool → Nat → List Nat → List Cell → List Nat → List Line
  | esc, nesc, text, cells, [] =>
    let nesc1 := if esc then nesc + 1 else nesc
    [{ cells := if text.length > 0 then cells ++ [mkCell text nesc1 false] else cells,
       ff := false }]
  | false, nesc, text, cells, ch :: rest =>
    if ch = 9 then tabwriterLines false 0 [] (cells ++ [mkCell text nesc true]) rest
    else if ch = 11 then tabwriterLines false 0 [] (cells ++ [mkCell text nesc false]) rest
    else if ch = 10 ∨ ch = 12 then
      { cells := cells ++ [mkCell text nesc false], ff := decide (ch = 12) } ::
        tabwriterLines false 0 [] [] rest
    else if ch = 255 then tabwriterLines true nesc (text ++ [ch]) cells rest
    else tabwriterLines false nesc (text ++ [ch]) cells rest
  | true, nesc, text, cells, ch :: rest =>
    if ch = 255 then tabwriterLines false (nesc + 1) (text ++ [ch]) cells rest
    else tabwriterLines true nesc (text ++ [ch]) cells rest

/-- Line `l` has a cell in column `j`: a cell that is not the last of the line. -/
def hasColumn (j : Nat) (l : Line) : Bool :=
  decide (j + 1 < l.cells.length)

/-- The width of the cell of `l` in column `j`. -/
def cellWidthAt (j : Nat) (l : Line) : Int :=
  match l.cells[j]? with
  | some c => c.width
  | none => 0

/-- The lines after a line that continue its column `j`: consecutive lines with a cell
in that column, up to and including one ended by a form feed. -/
def blockAfter (j : Nat) : List Line → List Line
  | [] => []
  | l :: ls => if hasColumn j l then l :: (if l.ff then [] else blockAfter j ls) else []

/-- The lines before a line (nearest first) that belong to its column `j`: consecutive
lines with a cell in that column, none ended by a form feed. -/
def blockBefore (j : Nat) : List Line → List Line
  | [] => []
  | l :: ls => if l.ff then [] else if hasColumn j l then l :: blockBefore j ls else []

/-- The width of column `j` at line `l`: the largest cell width plus padding over the
block of consecutive lines around `l` that have a cell in column `j`, at least
`minwidth`.  `before` holds the preceding lines, nearest first. -/
def columnWidth (minwidth padding : Int) (before after : List Line) (l : Line) (j : Nat) :
    Int :=
  (blockBefore j before ++ l :: (if l.ff then [] else blockAfter j after)).foldl
    (fun w x => max w (cellWidthAt j x + padding)) minwidth

/-- The cells of a line as written with left alignment and padding character `' '`:
every cell but the last is followed by spaces up to the width of its column. -/
def renderCells (w : Nat → Int) : Nat → List Cell → List Nat
  | _, [] => []
  | _, [c] => c.text
  | j, c :: c1 :: cs =>
    c.text ++ List.replicate (w j - c.width).toNat 32 ++ renderCells w (j + 1) (c1 :: cs)

/-- The lines as written, in order; `before` holds the lines already written, nearest
first. -/
def renderLines (minwidth padding : Int) : List Line → List Line → List (List Nat)
  | _, [] => []
  | before, l :: after =>
    renderCells (columnWidth minwidth padding before after l) 0 l.cells ::
      renderLines minwidth padding (l :: before) after

/-- What a `tabwriter.NewWriter(buf, minwidth, 0, padding, ' ', 0)` has written to `buf`
after `text` was written to it and it was flushed: the lines of `text` with their
tab-terminated cells padded into columns, separated by newlines. -/
def tabwriter (minwidth padding : Int) (text : List Nat) : List Nat :=
  List.intercalate [10] (renderLines minwidth padding [] (tabwriterLines false 0 [] [] text))

/-! ## `wtshmsg` and `Program.HandleMessage` -/

/-- The values `Program.HandleMessage` distinguishes in its type switch; `other` is a
value of any other type. -/
inductive Message where
  | error (description : List Nat)
  | string (s : List Nat)
  | DatabaseConnectedMessage (Home : List Nat)
  | DatabaseDisconnectedMessage (Home : List Nat)
  | NewSessionMessage
  | ClosedCursorMessage
  | NewCursorMessage (URI : List Nat)
  | CreateMessage (Name : List Nat)
  | ResultMessage (Rows : List (List (List Nat)))
  | DropMessage (Name : List Nat)
  | other
  deriving DecidableEq, Repr

/-- Go `ResultMessage.String()`: the rows, cells joined by tabs and rows separated by
newlines, written through a tabwriter with minimal cell width 10 and padding 2. -/
def ResultMessage.String (Rows : List (List (List Nat))) : List Nat :=
  tabwriter 10 2 (List.intercalate [10] (Rows.map (List.intercalate [9])))

/-- Go `model.addLog(s)`. -/
def model.addLog (m : model) (s : List Nat) : model :=
  { m with messages := m.messages ++ [s] }

/-- Go `model.addLogSplit(s)`: `addLog` for every element of `strings.Split(s, "\n")`. -/
def model.addLogSplit (m : model) (s : List Nat) : model :=
  (s.splitOn 10).foldl model.addLog m

/-- The closure `Program.HandleMessage(m)` puts on the action queue. -/
def Program.HandleMessage (p : Program) (m : Message) : Program :=
  let p1 : Program :=
    match m with
    | .error description => { p with model := p.model.addLog description }
    | .string s => { p with model := p.model.addLog s }
    | .DatabaseConnectedMessage Home =>
      { p with model := p.model.addLog (ascii "connected to database at '" ++ Home ++ [39]),
               box := { p.box with prompt := [91] ++ Home ++ ascii "]$ " } }
    | .DatabaseDisconnectedMessage Home =>
      { p with model := p.model.addLog (ascii "disconnected from '" ++ Home ++ [39]),
               box := { p.box with prompt := ascii "$ " } }
    | .NewSessionMessage => { p with model := p.model.addLog (ascii "new session started") }
    | .ClosedCursorMessage => { p with model := p.model.addLog (ascii "cursor closed") }
    | .NewCursorMessage URI =>
      { p with model := p.model.addLog (ascii "new cursor on '" ++ URI ++ ascii "' opened") }
    | .CreateMessage Name =>
      { p with model := p.model.addLog (ascii "created '" ++ Name ++ [39]) }
    | .ResultMessage Rows =>
      { p with model := p.model.addLogSplit (ResultMessage.String Rows) }
    | .DropMessage Name =>
      { p with model := p.model.addLog (ascii "dropped '" ++ Name ++ [39]) }
    | .other => p
  p1.invalidate

/-- The line the tabwriter scanner makes of a row whose cells hold no separator: every
cell but the last ended by a tab, the last one being the text before the line end. -/
def rowLine (row : List (List Nat)) : Line :=
  { cells := row.dropLast.map (fun c => mkCell c 0 true) ++ [mkCell (row.getLastD []) 0 false],
    ff := false }

/-- The width of column `j` of a tabular result whose rows all have that column: the
largest rune count of a cell of the column plus the padding 2, at least the minimal
width 10. -/
def resultColumnWidth (Rows : List (List (List Nat))) (j : Nat) : Nat :=
  Rows.foldl (fun w r => max w (RuneCountInString (r.getD j []) + 2)) 10

/-- A row of a tabular result as the tabwriter writes it when every row has the same
number of cells: every cell but the last followed by spaces up to the width of its
column, then the last cell. -/
def resultLine (Rows : List (List (List Nat))) (row : List (List Nat)) : List Nat :=
  (row.dropLast.enum.flatMap fun jc =>
      jc.2 ++ List.replicate (resultColumnWidth Rows jc.1 - RuneCountInString jc.2) 32) ++
    row.getLastD []

/-- The bytes that are neither a tab, a vertical tab nor a space: what remains of a line
when cell separators and padding are disregarded. -/
def notBlank (x : Nat) : Bool :=
  x != 9 && x != 11 && x != 32

/-! ## Decoder: lemmas -/

theorem index_eq_ok {α : Type} (s : List α) (i : Nat) (h : i < s.length) :
    index s i = .ok s[i] := by
  simp [index, List.getElem?_eq_getElem h]

theorem index_eq_error {α : Type} (s : List α) (i : Nat) (h : s.length ≤ i) :
    index s i = .error .outOfRange := by
  simp [index, List.getElem?_eq_none h]

/-- On a rune other than ESC the loop body appends `plainKey` and leaves `i` alone. -/
theorem pollStep_plain (runes : List Int) (i : Nat) (keys : List Event)
    (h : i < runes.length) (hr : runes[i] ≠ 27) :
    pollStep runes i keys = .ok (i, keys ++ [plainKey runes[i]]) := by
  unfold pollStep plainKey
  rw [index_eq_ok runes i h]
  simp only [bind, Except.bind, pure, Except.pure, if_neg hr]
  split_ifs <;> rfl

/-- From an index after which no ESC occurs, the event loop appends one `plainKey` per
remaining rune and returns. -/
theorem pollLoop_plain (runes : List Int) :
    ∀ (fuel i : Nat) (keys : List Event), runes.length ≤ i + fuel →
      (∀ r ∈ runes.drop i, r ≠ 27) →
      pollLoop fuel runes i keys = .ok (keys ++ (runes.drop i).map plainKey) := by
  intro fuel
  induction fuel with
  | zero =>
    intro i keys hlen _
    have hle : runes.length ≤ i := by omega
    simp [pollLoop, Nat.not_lt.mpr hle, List.drop_eq_nil_of_le hle]
  | succ fuel ih =>
    intro i keys hlen hno
    by_cases hi : i < runes.length
    · have hd : runes.drop i = runes[i] :: runes.drop (i + 1) := List.drop_eq_getElem_cons hi
      have hr : runes[i] ≠ 27 := hno _ (by rw [hd]; exact List.mem_cons_self _ _)
      have hno1 : ∀ r ∈ runes.drop (i + 1), r ≠ 27 := by
        intro r hmem
        exact hno r (by rw [hd]; exact List.mem_cons_of_mem _ hmem)
      simp only [pollLoop, if_pos hi, pollStep_plain runes i keys hi hr]
      rw [ih (i + 1) _ (by omega) hno1, hd]
      simp only [List.map_cons, List.append_assoc, List.singleton_append]
    · have hle : runes.length ≤ i := Nat.le_of_not_lt hi
      simp [pollLoop, hi, List.drop_eq_nil_of_le hle]

/-- A chunk of runes without ESC decodes to one `plainKey` per rune. -/
theorem pollRunes_plain (runes : List Int) (h : ∀ r ∈ runes, r ≠ 27) :
    pollRunes runes = .ok (runes.map plainKey) := by
  unfold pollRunes
  rw [pollLoop_plain runes runes.length 0 [] (by omega) (by simpa using h)]
  simp

/-- On a buffer whose bytes from `i` on are all ASCII (below 128) the first loop of
`Poll` appends one rune per byte, the byte's own value. -/
theorem runesLoop_ascii (b : List Nat) :
    ∀ (fuel i : Nat) (runes : List Int), b.length ≤ i + fuel →
      (∀ x ∈ b.drop i, x < 128) →
      runesLoop fuel b i runes = .ok (runes ++ (b.drop i).map Int.ofNat) := by
  intro fuel
  induction fuel with
  | zero =>
    intro i runes hlen _
    have hle : b.length ≤ i := by omega
    simp [runesLoop, Nat.not_lt.mpr hle, List.drop_eq_nil_of_le hle]
  | succ fuel ih =>
    intro i runes hlen hall
    by_cases hi : i < b.length
    · have hd : b.drop i = b[i] :: b.drop (i + 1) := List.drop_eq_getElem_cons hi
      have hx : b[i] < 128 := hall _ (by rw [hd]; exact List.mem_cons_self _ _)
      have hall1 : ∀ x ∈ b.drop (i + 1), x < 128 := by
        intro x hmem
        exact hall x (by rw [hd]; exact List.mem_cons_of_mem _ hmem)
      have hdec : DecodeRune (b.drop i) = ((b[i] : Int), 1) := by
        rw [hd]; simp [DecodeRune, hx]
      simp only [runesLoop, if_pos hi, hdec]
      rw [ih (i + 1) _ (by omega) hall1, hd]
      simp only [List.map_cons, List.append_assoc, List.singleton_append, Int.ofNat_eq_coe]
    · have hle : b.length ≤ i := Nat.le_of_not_lt hi
      simp [runesLoop, hi, List.drop_eq_nil_of_le hle]

/-- On an all-ASCII buffer `Poll` runs the event loop on the bytes read as runes. -/
theorem Poll_ascii (b : List Nat) (h : ∀ x ∈ b, x < 128) :
    Poll b = pollRunes (b.map Int.ofNat) := by
  unfold Poll
  rw [runesLoop_ascii b b.length 0 [] (by omega) (by simpa using h)]
  simp

theorem pollLoop_succ (fuel : Nat) (runes : List Int) (i : Nat) (keys : List Event) :
    pollLoop (fuel + 1) runes i keys =
      if i < runes.length then
        match pollStep runes i keys with
        | .ok (i1, keys1) => pollLoop fuel runes (i1 + 1) keys1
        | .error e => .error e
      else .ok keys := rfl

/-- After the three runes `ESC [ X` with `X` an arrow letter, the event loop has appended
the arrow key `kt` and goes on at index 3 with one unit of fuel less. -/
theorem pollRunes_arrow (X : Int) (kt : KeyType) (rest : List Int)
    (hstep : ∀ runes : List Int, runes.length ≠ 1 → index runes 1 = .ok 91 →
      index runes 2 = .ok X → pollEscape runes 0 [] = .ok (2, [.key { Type_ := kt }]))
    (h : ∀ r ∈ rest, r ≠ 27) :
    pollRunes (27 :: 91 :: X :: rest)
      = .ok (.key { Type_ := kt } :: rest.map plainKey) := by
  have hesc := hstep (27 :: 91 :: X :: rest) (by simp) (by simp [index]) (by simp [index])
  have hs : pollStep (27 :: 91 :: X :: rest) 0 [] = .ok (2, [.key { Type_ := kt }]) := by
    unfold pollStep
    simp [index, bind, Except.bind, hesc]
  have hl : (27 :: 91 :: X :: rest).length = (rest.length + 2) + 1 := by simp
  unfold pollRunes
  rw [hl]
  rw [pollLoop_succ, if_pos (by simp), hs]
  simp only []
  rw [pollLoop_plain _ (rest.length + 2) (2 + 1) _ (by simp; omega) (by simpa using h)]
  simp

theorem pollEscape_arrow (X : Int) (kt : KeyType)
    (hX : (X = 65 ∧ kt = .KeyUp) ∨ (X = 66 ∧ kt = .KeyDown) ∨ (X = 67 ∧ kt = .KeyRight)
      ∨ (X = 68 ∧ kt = .KeyLeft))
    (runes : List Int) (h1 : runes.length ≠ 1) (hj : index runes 1 = .ok 91)
    (hk : index runes 2 = .ok X) :
    pollEscape runes 0 [] = .ok (2, [.key { Type_ := kt }]) := by
  unfold pollEscape
  rcases hX with ⟨rfl, rfl⟩ | ⟨rfl, rfl⟩ | ⟨rfl, rfl⟩ | ⟨rfl, rfl⟩ <;>
    simp [h1, hj, hk, bind, Except.bind, pure, Except.pure]

/-! ## Decoder: the fuel is enough -/

theorem decodeMulti_width_pos (p0 sz lo hi n : Nat) (rest : List Nat) :
    1 ≤ (decodeMulti p0 sz lo hi n rest).2 := by
  rcases rest with _ | ⟨b1, _ | ⟨b2, _ | ⟨b3, rest3⟩⟩⟩ <;>
    simp only [decodeMulti] <;> split_ifs <;> simp

/-- On a non-empty slice `DecodeRune` consumes at least one byte. -/
theorem DecodeRune_width_pos (p : List Nat) (h : p ≠ []) : 1 ≤ (DecodeRune p).2 := by
  cases p with
  | nil => exact absurd rfl h
  | cons p0 rest =>
    simp only [DecodeRune]
    split_ifs <;> first | exact Nat.le_refl _ | exact decodeMulti_width_pos _ _ _ _ _ _

/-- With fuel for every remaining byte the first loop of `Poll` returns. -/
theorem runesLoop_ok (b : List Nat) :
    ∀ (fuel i : Nat) (runes : List Int), b.length ≤ i + fuel →
      ∃ rs, runesLoop fuel b i runes = .ok rs := by
  intro fuel
  induction fuel with
  | zero =>
    intro i runes hlen
    exact ⟨runes, by simp [runesLoop, Nat.not_lt.mpr (by omega : b.length ≤ i)]⟩
  | succ fuel ih =>
    intro i runes hlen
    by_cases hi : i < b.length
    · have hne : b.drop i ≠ [] := by
        intro h0
        have := congrArg List.length h0
        simp at this
        omega
      have hw := DecodeRune_width_pos (b.drop i) hne
      simp only [runesLoop, if_pos hi]
      exact ih _ _ (by omega)
    · exact ⟨runes, by simp [runesLoop, hi]⟩

theorem index_error {α : Type} (s : List α) (i : Nat) (e : Fault)
    (h : index s i = .error e) : e = .outOfRange := by
  unfold index at h
  split at h
  · cases h
  · injection h with h; exact h.symm

theorem index_cases {α : Type} (s : List α) (i : Nat) :
    (∃ a, index s i = .ok a) ∨ index s i = .error .outOfRange := by
  cases h : index s i with
  | ok a => exact Or.inl ⟨a, rfl⟩
  | error e => rw [index_error s i e h]; exact Or.inr rfl

/-- The mouse branch either panics or leaves the index three further. -/
theorem pollMouse_cases (runes : List Int) (i : Nat) (keys : List Event) :
    (∃ ks, pollMouse runes i keys = .ok (i + 3, ks)) ∨
      pollMouse runes i keys = .error .outOfRange := by
  unfold pollMouse
  rcases index_cases runes (i + 2) with ⟨x, hx⟩ | hx <;>
    rcases index_cases runes (i + 3) with ⟨y, hy⟩ | hy <;>
    rcases index_cases runes (i + 1) with ⟨b, hb⟩ | hb <;>
    simp only [hx, hy, hb, bind, Except.bind, pure, Except.pure, or_true]
  left
  split_ifs <;> exact ⟨_, rfl⟩

/-- The ESC branch either panics or leaves an index that is not smaller. -/
theorem pollEscape_cases (runes : List Int) (i : Nat) (keys : List Event) :
    (∃ i1 ks, pollEscape runes i keys = .ok (i1, ks) ∧ i ≤ i1) ∨
      pollEscape runes i keys = .error .outOfRange := by
  unfold pollEscape
  by_cases h1 : runes.length = 1
  · simp only [h1, if_true, pure, Except.pure]
    exact Or.inl ⟨i, _, rfl, Nat.le_refl _⟩
  · rcases index_cases runes (i + 1) with ⟨j, hj⟩ | hj <;>
      rcases index_cases runes (i + 2) with ⟨k, hk⟩ | hk <;>
      simp only [h1, if_false, hj, hk, bind, Except.bind, pure, Except.pure, or_true]
    split_ifs
    · rcases pollMouse_cases runes (i + 2) keys with ⟨ks, hm⟩ | hm
      · exact Or.inl ⟨_, ks, hm, by omega⟩
      · exact Or.inr hm
    all_goals exact Or.inl ⟨_, _, rfl, by omega⟩

/-- The loop body either panics or leaves an index that is not smaller. -/
theorem pollStep_cases (runes : List Int) (i : Nat) (keys : List Event) :
    (∃ i1 ks, pollStep runes i keys = .ok (i1, ks) ∧ i ≤ i1) ∨
      pollStep runes i keys = .error .outOfRange := by
  unfold pollStep
  rcases index_cases runes i with ⟨r, hr⟩ | hr <;>
    simp only [hr, bind, Except.bind, pure, Except.pure, or_true]
  split_ifs <;>
    first
    | exact pollEscape_cases runes i keys
    | exact Or.inl ⟨_, _, rfl, Nat.le_refl _⟩

/-- With fuel for every remaining rune the event loop returns or panics; it never runs
out of fuel. -/
theorem pollLoop_cases (runes : List Int) :
    ∀ (fuel i : Nat) (keys : List Event), runes.length ≤ i + fuel →
      (∃ ks, pollLoop fuel runes i keys = .ok ks) ∨
        pollLoop fuel runes i keys = .error .outOfRange := by
  intro fuel
  induction fuel with
  | zero =>
    intro i keys hlen
    exact Or.inl ⟨keys, by simp [pollLoop, Nat.not_lt.mpr (by omega : runes.length ≤ i)]⟩
  | succ fuel ih =>
    intro i keys hlen
    rw [pollLoop_succ]
    by_cases hi : i < runes.length
    · rw [if_pos hi]
      rcases pollStep_cases runes i keys with ⟨i1, ks, hs, hle⟩ | hs
      · rw [hs]
        exact ih (i1 + 1) ks (by omega)
      · rw [hs]
        exact Or.inr rfl
    · rw [if_neg hi]
      exact Or.inl ⟨keys, rfl⟩

/-- The fuel `Poll` gives its two loops is enough on every chunk: `Poll` returns events or
stops with the out-of-range panic. -/
theorem Poll_cases (b : List Nat) :
    (∃ evs, Poll b = .ok evs) ∨ Poll b = .error .outOfRange := by
  unfold Poll
  obtain ⟨rs, hrs⟩ := runesLoop_ok b b.length 0 [] (by omega)
  rw [hrs]
  exact pollLoop_cases rs rs.length 0 [] (by omega)

/-! ## Decoder: the bit tests of the mouse branch -/

theorem and_two_pow_ne_zero (x k : Nat) : x &&& 2 ^ k ≠ 0 ↔ x / 2 ^ k % 2 = 1 := by
  have ht : x.testBit k = decide (x / 2 ^ k % 2 = 1) := Nat.testBit_to_div_mod
  constructor
  · intro h
    by_contra hb
    apply h
    apply Nat.eq_of_testBit_eq
    intro i
    rw [Nat.testBit_and, Nat.testBit_two_pow, Nat.zero_testBit]
    by_cases hik : k = i
    · subst hik; simp [ht, hb]
    · simp [hik]
  · intro hb h
    have h2 := congrArg (fun n => n.testBit k) h
    simp [Nat.testBit_and, Nat.testBit_two_pow_self, ht, hb] at h2

theorem and32_two_pow (c : Int) (k : Nat) (hk : k < 32) :
    and32 c (1 <<< k) ≠ 0 ↔ c / 2 ^ k % 2 = 1 := by
  have hn : ((c % 4294967296).toNat : Int) = c % 4294967296 :=
    Int.toNat_of_nonneg (Int.emod_nonneg _ (by decide))
  have h := and_two_pow_ne_zero (c % 4294967296).toNat k
  unfold and32
  rw [Nat.one_shiftLeft, h]
  interval_cases k <;> simp only [Nat.reducePow, Int.reducePow] <;> omega

/-- For `k < 32`, bit `k` of an integer in two's complement is `⌊c / 2^k⌋ mod 2`. -/
theorem testBit_eq_div_mod (c : Int) (k : Nat) (hk : k < 32) :
    c.testBit k = decide (c / 2 ^ k % 2 = 1) := by
  cases c with
  | ofNat m =>
    simp only [Int.testBit, Nat.testBit_to_div_mod, decide_eq_decide, Int.ofNat_eq_coe]
    interval_cases k <;> simp only [Nat.reducePow, Int.reducePow] <;> omega
  | negSucc m =>
    have hneg : Int.negSucc m = -((m : Int) + 1) := Int.negSucc_eq m
    simp only [Int.testBit, Nat.testBit_to_div_mod, ← decide_not, decide_eq_decide, hneg]
    interval_cases k <;> simp only [Nat.reducePow, Int.reducePow] <;> omega

/-- The test `b & (1 << k) != 0` of the source reads bit `k` of `b`. -/
theorem and32_bit (c : Int) (k : Nat) (hk : k < 32) :
    decide (and32 c (1 <<< k) ≠ 0) = c.testBit k := by
  rw [testBit_eq_div_mod c k hk, decide_eq_decide]
  exact and32_two_pow c k hk

theorem and32_bit_iff (c : Int) (k : Nat) (hk : k < 32) :
    and32 c (1 <<< k) ≠ 0 ↔ c.testBit k = true := by
  rw [← and32_bit c k hk, decide_eq_true_iff]

/-- The value `b & 3` of the source is `b mod 4`. -/
theorem and32_three (c : Int) : (and32 c 3 : Int) = c % 4 := by
  have hn : ((c % 4294967296).toNat : Int) = c % 4294967296 :=
    Int.toNat_of_nonneg (Int.emod_nonneg _ (by decide))
  have h := Nat.and_pow_two_sub_one_eq_mod (c % 4294967296).toNat 2
  have e : (2 ^ 2 - 1 : Nat) = 3 := by decide
  rw [e] at h
  unfold and32
  rw [h]
  omega

theorem and32_three_eq (c : Int) (n : Nat) : and32 c 3 = n ↔ c % 4 = (n : Int) := by
  rw [← and32_three]
  exact Nat.cast_inj.symm

/-- The mouse branch on the six runes `ESC [ M b x y`, in terms of the bits of `b - 32`. -/
theorem pollMouse_report (b x y : Int) :
    pollMouse [27, 91, 77, b, x, y] 2 [] = .ok (5,
      if (b - 32).testBit 6 then
        if (b - 32) % 4 = 0 then
          [.mouseScroll { Point := { X := x - 1, Y := y - 1 },
                          Modifiers := { Control := (b - 32).testBit 2, Alt := (b - 32).testBit 3,
                                         Shift := (b - 32).testBit 4 },
                          Direction := .ScrollUp }]
        else if (b - 32) % 4 = 1 then
          [.mouseScroll { Point := { X := x - 1, Y := y - 1 },
                          Modifiers := { Control := (b - 32).testBit 2, Alt := (b - 32).testBit 3,
                                         Shift := (b - 32).testBit 4 },
                          Direction := .ScrollDown }]
        else []
      else
        if (b - 32) % 4 = 0 then
          [.mousePress { Point := { X := x - 1, Y := y - 1 },
                         Modifiers := { Control := (b - 32).testBit 2, Alt := (b - 32).testBit 3,
                                        Shift := (b - 32).testBit 4 },
                         Key := .MouseLeft }]
        else if (b - 32) % 4 = 1 then
          [.mousePress { Point := { X := x - 1, Y := y - 1 },
                         Modifiers := { Control := (b - 32).testBit 2, Alt := (b - 32).testBit 3,
                                        Shift := (b - 32).testBit 4 },
                         Key := .MouseMiddle }]
        else if (b - 32) % 4 = 2 then
          [.mousePress { Point := { X := x - 1, Y := y - 1 },
                         Modifiers := { Control := (b - 32).testBit 2, Alt := (b - 32).testBit 3,
                                        Shift := (b - 32).testBit 4 },
                         Key := .MouseRight }]
        else
          [.mouseRelease { Point := { X := x - 1, Y := y - 1 },
                           Modifiers := { Control := (b - 32).testBit 2, Alt := (b - 32).testBit 3,
                                          Shift := (b - 32).testBit 4 } }]) := by
  have h0 := and32_three_eq (b - 32) 0
  have h1 := and32_three_eq (b - 32) 1
  have h2 := and32_three_eq (b - 32) 2
  have h3 := and32_three_eq (b - 32) 3
  have hlt : (b - 32) % 4 < 4 := Int.emod_lt_of_pos _ (by decide)
  have hge : 0 ≤ (b - 32) % 4 := Int.emod_nonneg _ (by decide)
  simp only [Nat.cast_zero, Nat.cast_one, Nat.cast_ofNat] at h0 h1 h2 h3
  unfold pollMouse
  simp only [index, Nat.reduceAdd, List.getElem?_cons_succ, List.getElem?_cons_zero, bind,
    Except.bind, pure, Except.pure, and32_bit _ 2 (by decide), and32_bit _ 3 (by decide),
    and32_bit _ 4 (by decide), and32_bit_iff _ 6 (by decide), h0, h1, h2, h3, List.nil_append]
  split_ifs <;> first | rfl | omega

/-- The event loop on the six runes `ESC [ M b x y` returns what the mouse branch
appends. -/
theorem pollRunes_mouse (b x y : Int) (evs : List Event)
    (h : pollMouse [27, 91, 77, b, x, y] 2 [] = .ok (5, evs)) :
    pollRunes [27, 91, 77, b, x, y] = .ok evs := by
  have hesc : pollEscape [27, 91, 77, b, x, y] 0 [] = .ok (5, evs) := by
    unfold pollEscape
    simp [index, bind, Except.bind, h]
  have hs : pollStep [27, 91, 77, b, x, y] 0 [] = .ok (5, evs) := by
    unfold pollStep
    simp [index, bind, Except.bind, hesc]
  unfold pollRunes
  have hl : [27, 91, 77, b, x, y].length = 5 + 1 := rfl
  rw [hl, pollLoop_succ, if_pos (by simp), hs]
  simp [pollLoop]

/-! ## Decoder: the claims -/

/-- C1 (fails on the code).  The claim says no rune lookup of the decoder is ever out of
range.  On the two-byte chunk `ESC [` the lookup `runes[i+2]` is out of range, and on
`ESC [ M` followed by a single byte the lookup `runes[i+2]` of the mouse branch is. -/
theorem Poll_short_escape_out_of_range :
    Poll [27, 91] = .error .outOfRange ∧ Poll [27, 91, 77, 32] = .error .outOfRange := by
  constructor <;> rfl

/-- C2.  A chunk of printable ASCII bytes (32..126) decodes to exactly one event per
byte, in order: the `Character` key carrying that byte's code point. -/
theorem Poll_printable_ascii (b : List Nat) (h : ∀ x ∈ b, 32 ≤ x ∧ x ≤ 126) :
    ∃ evs : List Event,
      Poll b = .ok evs ∧ evs.length = b.length ∧
      evs = b.map fun (x : Nat) => Event.key { Type_ := .KeyCharacter, Rune := (x : Int) } := by
  refine ⟨_, ?_, by rw [List.length_map], rfl⟩
  have hascii : ∀ x ∈ b, x < 128 := fun x hx => by have := h x hx; omega
  have hno : ∀ r ∈ b.map Int.ofNat, r ≠ 27 := by
    intro r hr
    obtain ⟨x, hx, rfl⟩ := List.mem_map.mp hr
    have := h x hx
    simp only [Int.ofNat_eq_coe]
    omega
  rw [Poll_ascii b hascii, pollRunes_plain _ hno, List.map_map]
  congr 1
  apply List.map_congr_left
  intro x hx
  have := h x hx
  simp only [Function.comp, plainKey, Int.ofNat_eq_coe]
  rw [if_neg (by omega), if_neg (by omega), if_neg (by omega), if_neg (by omega)]

theorem Poll_printable_ascii_witness :
    (∀ x ∈ [104, 105], 32 ≤ x ∧ x ≤ 126) ∧
    ∃ evs : List Event,
      Poll [104, 105] = .ok evs ∧ evs.length = [104, 105].length ∧
      evs = [104, 105].map fun (x : Nat) => Event.key { Type_ := .KeyCharacter, Rune := (x : Int) } :=
  ⟨by decide, Poll_printable_ascii [104, 105] (by decide)⟩

/-- C3.  A chunk `ESC [ X` followed by runes without ESC, with `X` one of `A`, `B`, `C`,
`D`, decodes to the arrow key (Up, Down, Right, Left) followed by exactly the events of
the remaining runes decoded on their own; the chunk `ESC [ A` alone gives `[Key Up]`. -/
theorem Poll_arrow_sequence (rest : List Int) (h : ∀ r ∈ rest, r ≠ 27) :
    (∃ evs : List Event,
      pollRunes rest = .ok evs ∧
      pollRunes (27 :: 91 :: 65 :: rest) = .ok (.key { Type_ := .KeyUp } :: evs) ∧
      pollRunes (27 :: 91 :: 66 :: rest) = .ok (.key { Type_ := .KeyDown } :: evs) ∧
      pollRunes (27 :: 91 :: 67 :: rest) = .ok (.key { Type_ := .KeyRight } :: evs) ∧
      pollRunes (27 :: 91 :: 68 :: rest) = .ok (.key { Type_ := .KeyLeft } :: evs)) ∧
    Poll [27, 91, 65] = .ok [.key { Type_ := .KeyUp }] := by
  refine ⟨⟨rest.map plainKey, pollRunes_plain rest h, ?_, ?_, ?_, ?_⟩, rfl⟩
  · exact pollRunes_arrow 65 .KeyUp rest (pollEscape_arrow 65 .KeyUp (by simp)) h
  · exact pollRunes_arrow 66 .KeyDown rest (pollEscape_arrow 66 .KeyDown (by simp)) h
  · exact pollRunes_arrow 67 .KeyRight rest (pollEscape_arrow 67 .KeyRight (by simp)) h
  · exact pollRunes_arrow 68 .KeyLeft rest (pollEscape_arrow 68 .KeyLeft (by simp)) h

theorem Poll_arrow_sequence_witness :
    (∀ r ∈ ([97, 13] : List Int), r ≠ 27) ∧
    ((∃ evs : List Event,
      pollRunes [97, 13] = .ok evs ∧
      pollRunes (27 :: 91 :: 65 :: [97, 13]) = .ok (.key { Type_ := .KeyUp } :: evs) ∧
      pollRunes (27 :: 91 :: 66 :: [97, 13]) = .ok (.key { Type_ := .KeyDown } :: evs) ∧
      pollRunes (27 :: 91 :: 67 :: [97, 13]) = .ok (.key { Type_ := .KeyRight } :: evs) ∧
      pollRunes (27 :: 91 :: 68 :: [97, 13]) = .ok (.key { Type_ := .KeyLeft } :: evs)) ∧
    Poll [27, 91, 65] = .ok [.key { Type_ := .KeyUp }]) :=
  ⟨by decide, Poll_arrow_sequence [97, 13] (by decide)⟩

/-- C4.  The six runes `ESC [ M b x y` decode to at most one event.  With `c = b - 32`,
the point is `(x-1, y-1)` and the modifiers are Control = bit 2, Alt = bit 3,
Shift = bit 4 of `c`.  When bit 6 of `c` is set the event is a scroll, Up for
`c mod 4 = 0`, Down for `c mod 4 = 1`, and there is no event otherwise; when bit 6 is
clear it is a press of Left, Middle, Right for `c mod 4 = 0, 1, 2` and a release for
`c mod 4 = 3`.  The report `b = 32, x = 5, y = 5` gives a left press at `(4, 4)` with
no modifiers. -/
theorem Poll_mouse_report (b x y : Int) :
    (∃ evs : List Event,
      pollRunes [27, 91, 77, b, x, y] = .ok evs ∧ evs.length ≤ 1 ∧
      evs =
        (let c := b - 32
         let p : Point := { X := x - 1, Y := y - 1 }
         let mods : Modifiers :=
           { Control := c.testBit 2, Alt := c.testBit 3, Shift := c.testBit 4 }
         if c.testBit 6 then
           if c % 4 = 0 then
             [.mouseScroll { Point := p, Modifiers := mods, Direction := .ScrollUp }]
           else if c % 4 = 1 then
             [.mouseScroll { Point := p, Modifiers := mods, Direction := .ScrollDown }]
           else []
         else
           if c % 4 = 0 then
             [.mousePress { Point := p, Modifiers := mods, Key := .MouseLeft }]
           else if c % 4 = 1 then
             [.mousePress { Point := p, Modifiers := mods, Key := .MouseMiddle }]
           else if c % 4 = 2 then
             [.mousePress { Point := p, Modifiers := mods, Key := .MouseRight }]
           else
             [.mouseRelease { Point := p, Modifiers := mods }])) ∧
    Poll [27, 91, 77, 32, 5, 5] =
      .ok [.mousePress { Point := { X := 4, Y := 4 }, Key := .MouseLeft, Modifiers := {} }] := by
  refine ⟨⟨_, pollRunes_mouse b x y _ (pollMouse_report b x y), ?_, rfl⟩, rfl⟩
  split_ifs <;> simp

/-- C5 (fails on the code).  The claim says a chunk ending in ESC decodes, with an
Escape key for that ESC as its last event, whatever ESC-free runes precede it.  That
holds for the chunk whose sole content is ESC; on the chunk `a ESC` the guard
`len(runes) == 1` is false and the lookup `runes[i+1]` is out of range. -/
theorem Poll_trailing_escape_out_of_range :
    Poll [27] = .ok [.key { Type_ := .KeyEscape }] ∧ Poll [97, 27] = .error .outOfRange := by
  constructor <;> rfl

/-! ## Editor: lemmas -/

theorem Updates_cons (b : inputBox) (m : model) (e : Event) (es : List Event) :
    inputBox.Updates b m (e :: es) =
      match b.Update e m with
      | .ok (b1, calls1) =>
        match inputBox.Updates b1 m es with
        | .ok (b2, calls2) => .ok (b2, calls1 ++ calls2)
        | .error f => .error f
      | .error f => .error f := rfl

theorem Updates_append (m : model) (l2 : List Event) :
    ∀ (l1 : List Event) (b : inputBox),
      inputBox.Updates b m (l1 ++ l2) =
        match inputBox.Updates b m l1 with
        | .ok (b1, calls1) =>
          match inputBox.Updates b1 m l2 with
          | .ok (b2, calls2) => .ok (b2, calls1 ++ calls2)
          | .error f => .error f
        | .error f => .error f := by
  intro l1
  induction l1 with
  | nil =>
    intro b
    simp only [List.nil_append, inputBox.Updates]
    cases inputBox.Updates b m l2 with
    | error f => rfl
    | ok r => rfl
  | cons e es ih =>
    intro b
    rw [List.cons_append, Updates_cons, Updates_cons]
    cases b.Update e m with
    | error f => rfl
    | ok r =>
      obtain ⟨b1, calls1⟩ := r
      simp only []
      rw [ih b1]
      cases inputBox.Updates b1 m es with
      | error f => rfl
      | ok r1 =>
        obtain ⟨b2, calls2⟩ := r1
        simp only []
        cases inputBox.Updates b2 m l2 with
        | error f => rfl
        | ok r2 => simp only [List.append_assoc]

/-- Typing an ASCII character with the cursor at the end of the content, when the line
still fits the width, appends the byte and advances the cursor. -/
theorem Update_char_at_end (b : inputBox) (m : model) (x : Nat) (hx : x < 128)
    (hidx : b.index = (b.Content.length : Int))
    (hfit : (b.Content.length : Int) + 1 + (b.prompt.length : Int) ≤ m.width) :
    b.Update (charKey (x : Int)) m =
      .ok ({ b with Content := b.Content ++ [x], index := b.index + 1 }, []) := by
  have hrs : runeString (x : Int) = [x] := by
    unfold runeString
    rw [if_neg (by omega)]
    simp [hx]
  have hnot : ¬ ((((b.Content ++ [x]).length : Nat) : Int) + (b.prompt.length : Int) > m.width) := by
    rw [List.length_append, List.length_singleton]
    push_cast
    omega
  simp only [inputBox.Update, charKey, sliceTo, sliceFrom, hidx, hrs, bind, Except.bind,
    pure, Except.pure, Int.toNat_ofNat, List.take_length, List.drop_length, List.append_nil,
    Int.natCast_nonneg, le_refl, and_self, if_true, if_neg hnot]

theorem Updates_typeLine (m : model) :
    ∀ (l : List Nat) (b : inputBox), (∀ x ∈ l, x < 128) →
      b.index = (b.Content.length : Int) →
      (b.Content.length : Int) + (l.length : Int) + (b.prompt.length : Int) ≤ m.width →
      inputBox.Updates b m (typeLine l) =
        .ok ({ b with Content := b.Content ++ l, index := b.index + (l.length : Int) }, []) := by
  intro l
  induction l with
  | nil =>
    intro b _ _ _
    simp [typeLine, inputBox.Updates]
  | cons x xs ih =>
    intro b hall hidx hfit
    have hx : x < 128 := hall x (List.mem_cons_self _ _)
    have hxs : ∀ y ∈ xs, y < 128 := fun y hy => hall y (List.mem_cons_of_mem _ hy)
    simp only [List.length_cons, Nat.cast_add, Nat.cast_one] at hfit
    have hstep := Update_char_at_end b m x hx hidx (by omega)
    have hih := ih { b with Content := b.Content ++ [x], index := b.index + 1 } hxs
      (by simp [hidx]) (by simp; omega)
    simp only [typeLine, List.map_cons, inputBox.Updates] at hih ⊢
    rw [hstep]
    simp only []
    rw [hih]
    simp only [List.append_assoc, List.singleton_append, List.nil_append, add_assoc,
      add_comm (1 : Int), List.length_cons, Nat.cast_add, Nat.cast_one]

/-! ## Editor: the claims -/

/-- C6.  An Enter key with non-empty content appends the content to the history, calls
`submit` exactly once with the current prompt and the content, and resets content,
cursor index and history index; with empty content it leaves the history alone, calls
nothing and performs the same reset.  Submitting `help` to the fresh editor (typed, or
as the content) gives empty content, history `["help"]` and the one call
`submit("$ ", "help")`. -/
theorem Update_enter (b : inputBox) (m : model) (shift alt control : Bool) (rune : Int) :
    b.Update (.key { Type_ := .KeyEnter, Shift := shift, Alt := alt, Control := control,
                     Rune := rune }) m =
      .ok (if b.Content ≠ [] then
             ({ index := 0, Content := [], prompt := b.prompt,
                history := b.history ++ [b.Content], historyIndex := 0 },
              [(b.prompt, b.Content)])
           else
             ({ index := 0, Content := [], prompt := b.prompt, history := b.history,
                historyIndex := 0 }, [])) ∧
    ({ newInputbox with Content := [104, 101, 108, 112], index := 4 }).Update
        (keyOf .KeyEnter) m =
      .ok ({ index := 0, Content := [], prompt := [36, 32], history := [[104, 101, 108, 112]],
             historyIndex := 0 }, [([36, 32], [104, 101, 108, 112])]) ∧
    newInputbox.Updates { height := 24, width := 80, messages := [] }
        (typeLine [104, 101, 108, 112] ++ [keyOf .KeyEnter]) =
      .ok ({ index := 0, Content := [], prompt := [36, 32], history := [[104, 101, 108, 112]],
             historyIndex := 0 }, [([36, 32], [104, 101, 108, 112])]) := by
  refine ⟨?_, rfl, by decide⟩
  cases hc : b.Content with
  | nil => simp [inputBox.Update, hc]
  | cons x xs => simp [inputBox.Update, hc]

/-- C7 (as stated, fails).  After submitting `a` and then `b` to the fresh editor, Up, Up,
Down does not leave the content equal to `a`: the run succeeds with content `b`. -/
theorem history_up_up_down_not_first :
    newInputbox.Updates { height := 24, width := 80, messages := [] }
        (typeLine [97] ++ [keyOf .KeyEnter] ++ typeLine [98] ++
          [keyOf .KeyEnter, keyOf .KeyUp, keyOf .KeyUp, keyOf .KeyDown]) =
      .ok ({ index := 1, Content := [98], prompt := [36, 32], history := [[97], [98]],
             historyIndex := 1 }, [([36, 32], [97]), ([36, 32], [98])]) ∧
    ¬ ∃ (s : inputBox) (calls : List (List Nat × List Nat)),
      newInputbox.Updates { height := 24, width := 80, messages := [] }
        (typeLine [97] ++ [keyOf .KeyEnter] ++ typeLine [98] ++
          [keyOf .KeyEnter, keyOf .KeyUp, keyOf .KeyUp, keyOf .KeyDown]) = .ok (s, calls) ∧
      s.Content = [97] := by
  have h : newInputbox.Updates { height := 24, width := 80, messages := [] }
        (typeLine [97] ++ [keyOf .KeyEnter] ++ typeLine [98] ++
          [keyOf .KeyEnter, keyOf .KeyUp, keyOf .KeyUp, keyOf .KeyDown]) =
      .ok ({ index := 1, Content := [98], prompt := [36, 32], history := [[97], [98]],
             historyIndex := 1 }, [([36, 32], [97]), ([36, 32], [98])]) := by decide
  refine ⟨h, ?_⟩
  rintro ⟨s, calls, hs, hc⟩
  rw [h] at hs
  injection hs with hs
  injection hs with hs1 hs2
  subst hs1
  exact absurd hc (by decide)

/-- Enter with a non-empty line, in the shape `Updates` uses. -/
theorem Updates_enter (b : inputBox) (m : model) (h : b.Content ≠ []) :
    inputBox.Updates b m [keyOf .KeyEnter] =
      .ok ({ index := 0, Content := [], prompt := b.prompt,
             history := b.history ++ [b.Content], historyIndex := 0 },
           [(b.prompt, b.Content)]) := by
  have hlen : b.Content.length > 0 := List.length_pos.mpr h
  simp [inputBox.Updates, inputBox.Update, keyOf, hlen]

/-- With history `[a, b]` and no browsing in progress, Up, Up, Down ends on `b`. -/
theorem Updates_up_up_down (a b p : List Nat) (m : model) :
    inputBox.Updates
        { index := 0, Content := [], prompt := p, history := [a, b], historyIndex := 0 } m
        [keyOf .KeyUp, keyOf .KeyUp, keyOf .KeyDown] =
      .ok ({ index := (b.length : Int), Content := b, prompt := p, history := [a, b],
             historyIndex := 1 }, []) := by
  simp [inputBox.Updates, inputBox.Update, keyOf, indexInt, index, bind, Except.bind, pure,
    Except.pure]

/-- C7 (amended).  Starting from the fresh editor, after typing and submitting a
non-empty ASCII line `a` and then a non-empty ASCII line `b` (both fitting the width
together with the prompt), Up, Up, Down leaves the content equal to `b`, the line
submitted last; the history is `[a, b]` and `submit` was called once for each line. -/
theorem history_up_up_down (a b : List Nat) (m : model) (ha : a ≠ []) (hb : b ≠ [])
    (haA : ∀ x ∈ a, x < 128) (hbA : ∀ x ∈ b, x < 128)
    (hwa : (a.length : Int) + 2 ≤ m.width) (hwb : (b.length : Int) + 2 ≤ m.width) :
    newInputbox.Updates m
        (typeLine a ++ [keyOf .KeyEnter] ++ typeLine b ++
          [keyOf .KeyEnter, keyOf .KeyUp, keyOf .KeyUp, keyOf .KeyDown]) =
      .ok ({ index := (b.length : Int), Content := b, prompt := [36, 32], history := [a, b],
             historyIndex := 1 }, [([36, 32], a), ([36, 32], b)]) := by
  have h1 := Updates_typeLine m a newInputbox haA rfl
    (by simp only [newInputbox, List.length_nil, List.length_cons, Nat.cast_zero,
          Nat.cast_add, Nat.cast_one]; omega)
  have h2 := Updates_enter
    { index := (a.length : Int), Content := a, prompt := [36, 32], history := [],
      historyIndex := 0 } m ha
  have h3 := Updates_typeLine m b
    { index := 0, Content := [], prompt := [36, 32], history := [a], historyIndex := 0 }
    hbA rfl
    (by simp only [List.length_nil, List.length_cons, Nat.cast_zero,
          Nat.cast_add, Nat.cast_one]; omega)
  have h4 := Updates_enter
    { index := (b.length : Int), Content := b, prompt := [36, 32], history := [a],
      historyIndex := 0 } m hb
  have h5 := Updates_up_up_down a b [36, 32] m
  simp only [newInputbox, List.nil_append, zero_add, List.append_nil] at h1 h2 h3 h4
  have h45 : inputBox.Updates
      { index := (b.length : Int), Content := b, prompt := [36, 32], history := [a],
        historyIndex := 0 } m
      [keyOf .KeyEnter, keyOf .KeyUp, keyOf .KeyUp, keyOf .KeyDown] =
      .ok ({ index := (b.length : Int), Content := b, prompt := [36, 32], history := [a, b],
             historyIndex := 1 }, [([36, 32], b)]) := by
    have := Updates_append m [keyOf .KeyUp, keyOf .KeyUp, keyOf .KeyDown] [keyOf .KeyEnter]
      { index := (b.length : Int), Content := b, prompt := [36, 32], history := [a],
        historyIndex := 0 }
    rw [h4] at this
    simp only [List.singleton_append, List.cons_append, List.nil_append] at this
    rw [this, h5]
  rw [Updates_append, Updates_append, Updates_append]
  simp only [newInputbox]
  rw [h1]
  simp only []
  rw [h2]
  simp only []
  rw [h3]
  simp only []
  rw [h45]
  simp

theorem history_up_up_down_witness :
    (([108, 115] : List Nat) ≠ [] ∧ ([112, 119, 100] : List Nat) ≠ [] ∧
      (∀ x ∈ ([108, 115] : List Nat), x < 128) ∧
      (∀ x ∈ ([112, 119, 100] : List Nat), x < 128)) ∧
    newInputbox.Updates { height := 24, width := 80, messages := [] }
        (typeLine [108, 115] ++ [keyOf .KeyEnter] ++ typeLine [112, 119, 100] ++
          [keyOf .KeyEnter, keyOf .KeyUp, keyOf .KeyUp, keyOf .KeyDown]) =
      .ok ({ index := (([112, 119, 100] : List Nat).length : Int), Content := [112, 119, 100],
             prompt := [36, 32], history := [[108, 115], [112, 119, 100]],
             historyIndex := 1 }, [([36, 32], [108, 115]), ([36, 32], [112, 119, 100])]) :=
  ⟨by decide,
   history_up_up_down [108, 115] [112, 119, 100] { height := 24, width := 80, messages := [] }
     (by decide) (by decide) (by decide) (by decide) (by decide) (by decide)⟩

/-- C8 (fails on the code).  The claim says a Character key that makes prompt plus
content exceed the width completes and leaves the content truncated to `width` bytes.
In the fresh editor (prompt `"$ "`) at width 2, typing `a` gives the one-byte content
`"a"`, `1 + 2 > 2`, and the slice `b.Content[:2]` is out of range; likewise at width 80
with 78 bytes typed and the cursor at the end. -/
theorem Update_character_overflow_out_of_range :
    newInputbox.Update (charKey 97) { height := 24, width := 2, messages := [] } =
      .error .outOfRange ∧
    inputBox.Update
        { index := 78, Content := List.replicate 78 120, prompt := [36, 32], history := [],
          historyIndex := 0 }
        (charKey 97) { height := 24, width := 80, messages := [] } =
      .error .outOfRange := by
  constructor <;> decide

/-- C9 (fails on the code).  The claim says the bounds `0 <= index <= len(Content)`,
`0 <= historyIndex <= len(history)` are preserved by every event at every width.  From
the state with content `"abcdef"` and the cursor at its end, a Character key at width 4
returns the content `"abcd"` with the cursor still at 6. -/
theorem Update_character_truncation_breaks_bounds :
    inputBox.bounds
        { index := 6, Content := [97, 98, 99, 100, 101, 102], prompt := [36, 32],
          history := [], historyIndex := 0 } ∧
    inputBox.Update
        { index := 6, Content := [97, 98, 99, 100, 101, 102], prompt := [36, 32],
          history := [], historyIndex := 0 }
        (charKey 120) { height := 24, width := 4, messages := [] } =
      .ok ({ index := 6, Content := [97, 98, 99, 100], prompt := [36, 32], history := [],
             historyIndex := 0 }, []) ∧
    ¬ inputBox.bounds
        { index := 6, Content := [97, 98, 99, 100], prompt := [36, 32], history := [],
          historyIndex := 0 } := by
  refine ⟨by decide, by decide, by decide⟩

/-! ## Invalidation: lemmas and the claim -/

theorem invalidate_eq (p : Program) : p.invalidate = { p with invalidated := true } := by
  obtain ⟨i, m, b, r⟩ := p
  cases i <;> rfl

theorem iterate_invalidate (k : Nat) (hk : 1 ≤ k) (p : Program) :
    Nat.iterate Program.invalidate k p = { p with invalidated := true } := by
  induction k generalizing p with
  | zero => omega
  | succ n ih =>
    rw [Function.iterate_succ_apply]
    cases n with
    | zero => exact invalidate_eq p
    | succ j => rw [ih (by omega), invalidate_eq]

theorem Run_invalidated_idle (p : Program) (h : p.invalidated = false) (n : Nat) :
    p.Run (List.replicate n .invalidated) = p := by
  induction n with
  | zero => rfl
  | succ n ih => simp [List.replicate_succ, Program.Run, Program.iterate, h, ih]

/-- C10.  `invalidate` leaves a state with a pending invalidation unchanged, so any
`k >= 1` calls of `invalidate` leave exactly one invalidation pending (the same state as
one call); the loop of `Run` then performs exactly one render pass for them, whether the
calls were made by the action just run or the loop finds the signal in its outer
`select`, and however often it polls the signal afterwards. -/
theorem invalidate_coalesces (p : Program) (k n : Nat) (hk : 1 ≤ k) :
    ({ p with invalidated := true } : Program).invalidate = { p with invalidated := true } ∧
    Nat.iterate Program.invalidate k p = p.invalidate ∧
    (Nat.iterate Program.invalidate k p).invalidated = true ∧
    p.iterate (.action (Nat.iterate Program.invalidate k)) =
      .next { p with invalidated := false, renders := p.renders + 1 } ∧
    (Nat.iterate Program.invalidate k p).iterate .invalidated =
      .next { p with invalidated := false, renders := p.renders + 1 } ∧
    ((Nat.iterate Program.invalidate k p).Run (List.replicate (n + 1) .invalidated)).renders =
      p.renders + 1 := by
  have hk' := iterate_invalidate k hk
  refine ⟨rfl, ?_, ?_, ?_, ?_, ?_⟩
  · rw [hk', invalidate_eq]
  · rw [hk']
  · simp [Program.iterate, hk', Program.render]
  · simp [Program.iterate, hk', Program.render]
  · rw [hk', List.replicate_succ]
    simp only [Program.Run, Program.iterate, Program.render, if_true]
    rw [Run_invalidated_idle _ rfl]

theorem invalidate_coalesces_witness :
    (1 ≤ 2) ∧
    (({ idleProgram with invalidated := true } : Program).invalidate =
        { idleProgram with invalidated := true } ∧
      Nat.iterate Program.invalidate 2 idleProgram = idleProgram.invalidate ∧
      (Nat.iterate Program.invalidate 2 idleProgram).invalidated = true ∧
      idleProgram.iterate (.action (Nat.iterate Program.invalidate 2)) =
        .next { idleProgram with invalidated := false, renders := idleProgram.renders + 1 } ∧
      (Nat.iterate Program.invalidate 2 idleProgram).iterate .invalidated =
        .next { idleProgram with invalidated := false, renders := idleProgram.renders + 1 } ∧
      ((Nat.iterate Program.invalidate 2 idleProgram).Run
          (List.replicate (3 + 1) .invalidated)).renders = idleProgram.renders + 1) :=
  ⟨by decide, invalidate_coalesces idleProgram 2 3 (by decide)⟩

/-! ## Resize watcher: lemmas and the claim -/

/-- After a successful query the remembered dimensions are the ones just returned, so
the loop reports a query exactly when it differs from the one before it; `prev` stands
before the first query. -/
theorem Listener_loop_changes (qs : List (Int × Int)) :
    ∀ prev : Int × Int,
      Listener.loop prev.1 prev.2 (qs.map some) =
        ((qs.zip (prev :: qs)).filter fun p => decide (p.1 ≠ p.2)).map Prod.fst := by
  induction qs with
  | nil => intro prev; rfl
  | cons q qs ih =>
    intro prev
    obtain ⟨w, h⟩ := q
    obtain ⟨pw, ph⟩ := prev
    simp only [List.map_cons, Listener.loop, List.zip_cons_cons, List.filter_cons]
    by_cases hq : pw = w ∧ ph = h
    · obtain ⟨rfl, rfl⟩ := hq
      have := ih (pw, ph)
      simp only [] at this
      simp [this]
    · have hne : (w, h) ≠ (pw, ph) := by
        intro he
        injection he with h1 h2
        exact hq ⟨h1.symm, h2.symm⟩
      have := ih (w, h)
      simp only [] at this
      simp [hq, hne, this]

/-- Queries that repeat the remembered dimensions are never reported. -/
theorem Listener_loop_same (w h : Int) (n : Nat) :
    Listener.loop w h (List.replicate n (some (w, h))) = [] := by
  induction n with
  | zero => rfl
  | succ n ih => simp [List.replicate_succ, Listener.loop, ih]

/-- C11 (as stated, fails).  The claim says the first query is always reported.  A first
query that returns `(0, 0)` equals the zero-initialised remembered value and is not
reported: one such query, or three, give no `Resize` call at all. -/
theorem Listener_first_query_zero_not_reported :
    Listener.Run [some (0, 0)] = [] ∧
    Listener.Run [some (0, 0), some (0, 0), some (0, 0)] = [] ∧
    Listener.Run [some (0, 0), some (80, 24)] = [(80, 24)] := by
  refine ⟨by decide, by decide, by decide⟩

/-- C11 (amended).  For every sequence of successful queries, `Resize` is invoked exactly
at the queries that differ from the query before them, with `(0, 0)` standing before the
first query (the remembered value is `(0, 0)` until the first report and the last
reported value afterwards).  So for `n >= 1` queries that all return the same dimensions
`d` other than `(0, 0)`, `Resize` is invoked exactly once, for the first query. -/
theorem Listener_reports_changes (qs : List (Int × Int)) (d : Int × Int) (n : Nat)
    (hd : d ≠ (0, 0)) (hn : 1 ≤ n) :
    Listener.Run (qs.map some) =
        ((qs.zip ((0, 0) :: qs)).filter fun p => decide (p.1 ≠ p.2)).map Prod.fst ∧
    Listener.Run (List.replicate n (some d)) = [d] ∧
    Listener.Run [some (80, 24), some (80, 24), some (80, 24)] = [(80, 24)] := by
  refine ⟨Listener_loop_changes qs (0, 0), ?_, by decide⟩
  obtain ⟨m, rfl⟩ : ∃ m, n = m + 1 := ⟨n - 1, by omega⟩
  obtain ⟨w, h⟩ := d
  have hne : ¬ ((0 : Int) = w ∧ (0 : Int) = h) := by
    rintro ⟨rfl, rfl⟩
    exact hd rfl
  simp only [Listener.Run, List.replicate_succ, Listener.loop, if_neg hne]
  rw [Listener_loop_same]

theorem Listener_reports_changes_witness :
    (((80, 24) : Int × Int) ≠ (0, 0) ∧ 1 ≤ 3) ∧
    (Listener.Run (([(80, 24), (80, 24), (100, 30)] : List (Int × Int)).map some) =
        ((([(80, 24), (80, 24), (100, 30)] : List (Int × Int)).zip
            ((0, 0) :: [(80, 24), (80, 24), (100, 30)])).filter
              fun p => decide (p.1 ≠ p.2)).map Prod.fst ∧
      Listener.Run (List.replicate 3 (some (80, 24))) = [(80, 24)] ∧
      Listener.Run [some (80, 24), some (80, 24), some (80, 24)] = [(80, 24)]) :=
  ⟨by decide, Listener_reports_changes [(80, 24), (80, 24), (100, 30)] (80, 24) 3
    (by decide) (by decide)⟩

/-! ## Render pass: the claims -/

/-- C12 (fails on the code).  The claim says the input-line render addresses the bottom
row, zero-based row `h-1`, i.e. `CSI "{h};1f"`, the row directly below the newest log
message.  At height 24 with prompt `"$ "`, content `"ls"` and the cursor at 2 the code
prints `CSI "25;1f"`, `CSI "K"`, `"$ ls"`, `CSI "25;5f"`: it passes `s.height` where the
zero-based bottom row is `s.height - 1`, while the log render puts the newest message
at `CSI "23;1f"`, zero-based row 22. -/
theorem inputBox_render_row_off_by_one :
    inputBox.render
        { index := 2, Content := [108, 115], prompt := [36, 32], history := [],
          historyIndex := 0 }
        { height := 24, width := 80 } =
      [27, 91, 50, 53, 59, 49, 102] ++ [27, 91, 75] ++ [36, 32, 108, 115] ++
        [27, 91, 50, 53, 59, 53, 102] ∧
    SetPosition (24 - 1) 0 = [27, 91, 50, 52, 59, 49, 102] ∧
    inputBox.render
        { index := 2, Content := [108, 115], prompt := [36, 32], history := [],
          historyIndex := 0 }
        { height := 24, width := 80 } ≠
      SetPosition (24 - 1) 0 ++ ClearToEndOfLine ++ [36, 32, 108, 115] ++
        SetPosition (24 - 1) (2 + 2) ∧
    logs.render { height := 24, width := 80, messages := [[104, 105]] } =
      .ok [[27, 91, 50, 51, 59, 49, 102], ClearLine, [104, 105]] := by
  refine ⟨by decide, by decide, by decide, by decide⟩

theorem logsRenderLoop_succ (fuel : Nat) (space : Int) (messages : List (List Nat))
    (i n : Int) (out : List (List Nat)) :
    logsRenderLoop (fuel + 1) space messages i n out =
      if i < space ∧ n > -1 then
        match indexInt messages n with
        | .ok line =>
          logsRenderLoop fuel space messages (i + 1) (n - 1)
            (out ++ [SetPosition (space - (i + 1)) 0, ClearLine, line])
        | .error f => .error f
      else .ok out := rfl

/-- The log loop from iteration `i` with `c` iterations to go: it makes the three writes
of each of the iterations `i, ..., i + c - 1` and returns. -/
theorem logsRenderLoop_spec (space : Int) (messages : List (List Nat)) :
    ∀ (c fuel i : Nat) (out : List (List Nat)), c ≤ fuel → i ≤ messages.length →
      c = min (space - (i : Int)).toNat (messages.length - i) →
      logsRenderLoop fuel space messages (i : Int) ((messages.length : Int) - 1 - (i : Int)) out =
        .ok (out ++ (List.range' i c).flatMap fun j =>
          [SetPosition (space - ((j : Int) + 1)) 0, ClearLine,
            messages.getD (messages.length - 1 - j) []]) := by
  intro c
  induction c with
  | zero =>
    intro fuel i out _ hi hc
    have hstop : ¬ ((i : Int) < space ∧ (messages.length : Int) - 1 - (i : Int) > -1) := by
      omega
    cases fuel with
    | zero =>
      show (if (i : Int) < space ∧ (messages.length : Int) - 1 - (i : Int) > -1
        then Except.error Fault.outOfFuel else Except.ok out) = _
      rw [if_neg hstop]
      simp
    | succ f =>
      rw [logsRenderLoop_succ, if_neg hstop]
      simp
  | succ c ih =>
    intro fuel i out hfuel hi hc
    obtain ⟨f, rfl⟩ : ∃ f, fuel = f + 1 := ⟨fuel - 1, by omega⟩
    have hgo : (i : Int) < space ∧ (messages.length : Int) - 1 - (i : Int) > -1 := by omega
    have hlt : messages.length - 1 - i < messages.length := by omega
    have hidx : indexInt messages ((messages.length : Int) - 1 - (i : Int)) =
        .ok (messages.getD (messages.length - 1 - i) []) := by
      have h0 : (0 : Int) ≤ (messages.length : Int) - 1 - (i : Int) := by omega
      have ht : ((messages.length : Int) - 1 - (i : Int)).toNat = messages.length - 1 - i := by
        omega
      simp only [indexInt, if_pos h0, ht, index, List.getElem?_eq_getElem hlt,
        List.getD_eq_getElem?_getD, Option.getD_some]
    rw [logsRenderLoop_succ, if_pos hgo, hidx]
    simp only []
    have hnext : (messages.length : Int) - 1 - (i : Int) - 1 =
        (messages.length : Int) - 1 - ((i + 1 : Nat) : Int) := by push_cast; ring
    have hi1 : ((i : Int) + 1) = ((i + 1 : Nat) : Int) := by push_cast; ring
    rw [hnext, hi1, ih f (i + 1) _ (by omega) (by omega) (by omega)]
    rw [List.range'_succ, List.flatMap_cons]
    simp only [List.append_assoc, Nat.cast_add, Nat.cast_one]

/-- The cursor-position sequence for a zero-based row `r >= 0` at column 0: `ESC [`, the
decimal digits of `r + 1`, `;1f`. -/
theorem SetPosition_column_zero (r : Int) (hr : 0 ≤ r) :
    SetPosition r 0 =
      [27, 91] ++ (Nat.toDigits 10 (r + 1).toNat).map Char.toNat ++ [59, 49, 102] := by
  have h1 : itoa (0 + 1) = [49] := by decide
  have hneg : ¬ (r + 1 < 0) := by omega
  simp only [SetPosition, CSI, h1]
  simp only [itoa, if_neg hneg, List.append_assoc, List.cons_append, List.nil_append]

theorem flatMap_congr_mem {α β : Type} (l : List α) (f g : α → List β)
    (h : ∀ x ∈ l, f x = g x) : l.flatMap f = l.flatMap g := by
  rw [List.flatMap_def, List.flatMap_def, List.map_congr_left h]

/-- C15.  At height `h` with a log of `n` lines the log render returns after exactly
`min(max(h-1, 0), n)` iterations.  Iteration `i` makes three writes: the cursor-position
sequence `ESC [ {row+1} ; 1 f` for zero-based row `row = (h-1)-(i+1)` and column 0, the
clear of that row `ESC [ 2 K`, and the `i`-th newest message.  The rows go down by one
per iteration and are never negative; older messages are not written.  At height 3 with
the log `a, b, c` the writes are `ESC[2;1f`, `ESC[2K`, `c`, `ESC[1;1f`, `ESC[2K`, `b`; at
height 12 the newest message goes to `ESC[11;1f`. -/
theorem logs_render_spec (m : model) :
    logs.render m =
        .ok ((List.range (min (m.height - 1).toNat m.messages.length)).flatMap fun i =>
          [[27, 91] ++
              (Nat.toDigits 10 (((m.height - 1) - ((i : Int) + 1)) + 1).toNat).map Char.toNat ++
              [59, 49, 102],
            [27, 91, 50, 75],
            m.messages.getD (m.messages.length - 1 - i) []]) ∧
    (m.height - 1).toNat = max (m.height - 1) 0 ∧
    (∀ i : Nat, i < min (m.height - 1).toNat m.messages.length →
      0 ≤ (m.height - 1) - ((i : Int) + 1) ∧ i < m.messages.length) ∧
    logs.render { height := 3, width := 80, messages := [[97], [98], [99]] } =
      .ok [[27, 91, 50, 59, 49, 102], [27, 91, 50, 75], [99],
           [27, 91, 49, 59, 49, 102], [27, 91, 50, 75], [98]] ∧
    logs.render { height := 12, width := 80, messages := [[97]] } =
      .ok [[27, 91, 49, 49, 59, 49, 102], [27, 91, 50, 75], [97]] := by
  refine ⟨?_, by omega, fun i hi => by omega, by decide, by decide⟩
  have h := logsRenderLoop_spec (m.height - 1) m.messages
    (min (m.height - 1).toNat m.messages.length) m.messages.length 0 []
    (Nat.min_le_right _ _) (Nat.zero_le _) (by simp)
  simp only [Nat.cast_zero, sub_zero, List.nil_append] at h
  rw [logs.render, h, List.range_eq_range']
  congr 1
  apply flatMap_congr_mem
  intro i hi
  have hi' : i < min (m.height - 1).toNat m.messages.length := by
    have := (List.mem_range'_1.mp hi).2
    omega
  have hrow : 0 ≤ (m.height - 1) - ((i : Int) + 1) := by omega
  rw [SetPosition_column_zero _ hrow]
  rfl

/-! ## Editor: history browsing and Character/Backspace -/

/-- One Up key from history offset `j <= n` in a non-empty history of `n` entries: the
offset becomes `min(j+1, n)` and the entry at `n - min(j+1, n)` is loaded. -/
theorem Update_up_step (b : inputBox) (m : model) (j : Nat)
    (hj : b.historyIndex = (j : Int)) (hjn : j ≤ b.history.length)
    (hne : b.history ≠ []) :
    ∃ c, b.history[b.history.length - min (j + 1) b.history.length]? = some c ∧
      b.Update (keyOf .KeyUp) m =
        .ok ({ b with historyIndex := ((min (j + 1) b.history.length : Nat) : Int),
                      Content := c, index := (c.length : Int) }, []) := by
  have hpos : 0 < b.history.length := List.length_pos.mpr hne
  have hlt : b.history.length - min (j + 1) b.history.length < b.history.length := by omega
  refine ⟨b.history[b.history.length - min (j + 1) b.history.length],
    List.getElem?_eq_getElem hlt, ?_⟩
  have hlen0 : ¬ b.history.length = 0 := by omega
  by_cases hlt2 : j < b.history.length
  · have hmin : min (j + 1) b.history.length = j + 1 := by omega
    have hcond : (j : Int) < (b.history.length : Int) := by omega
    have h0 : (0 : Int) ≤ (b.history.length : Int) - ((j : Int) + 1) := by omega
    have ht : ((b.history.length : Int) - ((j : Int) + 1)).toNat =
        b.history.length - (j + 1) := by omega
    have hlt3 : b.history.length - (j + 1) < b.history.length := by omega
    simp only [inputBox.Update, keyOf, if_neg hlen0, hj, if_pos hcond, indexInt, if_pos h0,
      ht, index, List.getElem?_eq_getElem hlt3, bind, Except.bind, pure, Except.pure, hmin,
      Nat.cast_add, Nat.cast_one]
  · have hmin : min (j + 1) b.history.length = b.history.length := by omega
    have hcond : ¬ (j : Int) < (b.history.length : Int) := by omega
    have h0 : (0 : Int) ≤ (b.history.length : Int) - (j : Int) := by omega
    have ht : ((b.history.length : Int) - (j : Int)).toNat =
        b.history.length - b.history.length := by omega
    have hjeq : (j : Int) = (b.history.length : Int) := by omega
    have hlt3 : b.history.length - b.history.length < b.history.length := by omega
    simp only [inputBox.Update, keyOf, if_neg hlen0, hj, if_neg hcond, indexInt, if_pos h0,
      ht, index, List.getElem?_eq_getElem hlt3, bind, Except.bind, pure, Except.pure, hmin]
    rw [hjeq]

/-- After `k >= 1` Up keys from offset `j`, the offset is `min(j+k, n)`. -/
theorem Updates_up_from (m : model) :
    ∀ (k : Nat) (b : inputBox) (j : Nat), b.historyIndex = (j : Int) →
      j ≤ b.history.length → b.history ≠ [] →
      ∃ c, b.history[b.history.length - min (j + (k + 1)) b.history.length]? = some c ∧
        inputBox.Updates b m (List.replicate (k + 1) (keyOf .KeyUp)) =
          .ok ({ b with historyIndex := ((min (j + (k + 1)) b.history.length : Nat) : Int),
                        Content := c, index := (c.length : Int) }, []) := by
  intro k
  induction k with
  | zero =>
    intro b j hj hjn hne
    obtain ⟨c, hc, hu⟩ := Update_up_step b m j hj hjn hne
    refine ⟨c, hc, ?_⟩
    simp only [List.replicate, Updates_cons, hu, inputBox.Updates, List.append_nil]
  | succ k ih =>
    intro b j hj hjn hne
    obtain ⟨c1, _, hu⟩ := Update_up_step b m j hj hjn hne
    obtain ⟨c, hc, hus⟩ := ih
      { b with historyIndex := ((min (j + 1) b.history.length : Nat) : Int),
               Content := c1, index := (c1.length : Int) }
      (min (j + 1) b.history.length) rfl (Nat.min_le_right _ _) hne
    have hmin : min (min (j + 1) b.history.length + (k + 1)) b.history.length =
        min (j + (k + 1 + 1)) b.history.length := by omega
    simp only [hmin] at hc hus
    refine ⟨c, hc, ?_⟩
    rw [List.replicate_succ, Updates_cons, hu]
    simp only []
    rw [hus]
    simp only [List.append_nil]

/-- C14.  From an editor state that is not browsing (`historyIndex = 0`) with a history
of `n >= 1` entries, `k >= 1` Up keys give `historyIndex = min(k, n)`, the content equal
to the history entry at index `n - min(k, n)` and the cursor at the end of the content;
history and prompt are unchanged.  With an empty history an Up key changes nothing. -/
theorem Updates_up_repeated (b : inputBox) (m : model) (k : Nat)
    (hidx : b.historyIndex = 0) (hne : b.history ≠ []) (hk : 1 ≤ k) :
    (∃ c, b.history[b.history.length - min k b.history.length]? = some c ∧
      inputBox.Updates b m (List.replicate k (keyOf .KeyUp)) =
        .ok ({ index := (c.length : Int), Content := c, prompt := b.prompt,
               history := b.history,
               historyIndex := ((min k b.history.length : Nat) : Int) }, [])) ∧
    inputBox.Update { b with history := [] } (keyOf .KeyUp) m =
      .ok ({ b with history := [] }, []) := by
  constructor
  · obtain ⟨k', rfl⟩ : ∃ k', k = k' + 1 := ⟨k - 1, by omega⟩
    obtain ⟨c, hc, hu⟩ := Updates_up_from m k' b 0 (by simpa using hidx) (Nat.zero_le _) hne
    simp only [Nat.zero_add] at hc hu
    exact ⟨c, hc, hu⟩
  · simp [inputBox.Update, keyOf]

theorem Updates_up_repeated_witness :
    (((0 : Int) = 0) ∧ ([[97], [98, 99]] : List (List Nat)) ≠ [] ∧ 1 ≤ 3) ∧
    ((∃ c, ([[97], [98, 99]] : List (List Nat))[
          ([[97], [98, 99]] : List (List Nat)).length -
            min 3 ([[97], [98, 99]] : List (List Nat)).length]? = some c ∧
      inputBox.Updates
          { index := 0, Content := [], prompt := [36, 32], history := [[97], [98, 99]],
            historyIndex := 0 }
          { height := 24, width := 80, messages := [] }
          (List.replicate 3 (keyOf .KeyUp)) =
        .ok ({ index := (c.length : Int), Content := c, prompt := [36, 32],
               history := [[97], [98, 99]],
               historyIndex := ((min 3 ([[97], [98, 99]] : List (List Nat)).length : Nat) : Int) },
             [])) ∧
    inputBox.Update
        { index := 0, Content := [], prompt := [36, 32], history := [], historyIndex := 0 }
        (keyOf .KeyUp) { height := 24, width := 80, messages := [] } =
      .ok ({ index := 0, Content := [], prompt := [36, 32], history := [],
             historyIndex := 0 }, [])) :=
  ⟨by decide,
   Updates_up_repeated
     { index := 0, Content := [], prompt := [36, 32], history := [[97], [98, 99]],
       historyIndex := 0 }
     { height := 24, width := 80, messages := [] } 3 rfl (by decide) (by decide)⟩

/-- C16 (fails on the code).  The claim says a Character key followed by Backspace
restores content and cursor.  In the fresh editor at width 80 the key for `é` (U+00E9)
inserts the two bytes `C3 A9` and advances the cursor by one; Backspace then removes the
single byte before the cursor, `C3`, and leaves the content `A9`.  For the ASCII
character `a` the pair does restore the editor. -/
theorem Update_character_backspace_multibyte :
    inputBox.Updates newInputbox { height := 24, width := 80, messages := [] }
        [charKey 233] =
      .ok ({ index := 1, Content := [195, 169], prompt := [36, 32], history := [],
             historyIndex := 0 }, []) ∧
    inputBox.Updates newInputbox { height := 24, width := 80, messages := [] }
        [charKey 233, keyOf .KeyBackspace] =
      .ok ({ index := 0, Content := [169], prompt := [36, 32], history := [],
             historyIndex := 0 }, []) ∧
    inputBox.Updates newInputbox { height := 24, width := 80, messages := [] }
        [charKey 97, keyOf .KeyBackspace] = .ok (newInputbox, []) := by
  refine ⟨by decide, by decide, by decide⟩

/-! ## Command executor: lemmas and the claim -/

/-- The half of the nesting that the executor keeps: `handle` preserves
`session != nil -> conn != nil`. -/
theorem handle_session_conn (st : state) (s : List Nat) (ok : Bool)
    (h : st.session ≠ none → st.conn ≠ none) :
    (handle st s ok).1.session ≠ none → (handle st s ok).1.conn ≠ none := by
  unfold handle
  dsimp only
  cases Command.ofWord ((SplitN2 s).getD 0 []) <;> dsimp only [handleCase] <;>
    (try split_ifs) <;>
    first
    | exact h
    | exact fun _ => Option.some_ne_none _
    | exact fun hs => absurd rfl hs
    | exact fun _ => by assumption

/-- In every state reached from the initial one an open session has an open
connection. -/
theorem handleAll_session_conn (cmds : List (List Nat × Bool)) :
    ∀ st : state, (st.session ≠ none → st.conn ≠ none) →
      (handleAll st cmds).session ≠ none → (handleAll st cmds).conn ≠ none := by
  induction cmds with
  | nil => intro st h; exact h
  | cons c cmds ih =>
    intro st h
    obtain ⟨s, ok⟩ := c
    exact ih _ (handle_session_conn st s ok h)

/-- C17 (fails on the code).  The claim says that in every reachable state an open
cursor implies an open session.  After `open`, `open-session`, `open-cursor` and then
`close-session`, all succeeding, the session is nil and the cursor is not;
after `close` in place of `close-session` connection and session are nil and the cursor
is not: neither command resets `state.cursor`. -/
theorem handle_close_leaves_cursor :
    handleAll state.initial
        [(ascii "open /tmp/db", true), (ascii "open-session", true),
         (ascii "open-cursor table:t", true), (ascii "close-session", true)] =
      { conn := some (), home := ascii "/tmp/db", session := none, cursor := some () } ∧
    handleAll state.initial
        [(ascii "open /tmp/db", true), (ascii "open-session", true),
         (ascii "open-cursor table:t", true), (ascii "close", true)] =
      { conn := none, home := [], session := none, cursor := some () } ∧
    ¬ ((handleAll state.initial
        [(ascii "open /tmp/db", true), (ascii "open-session", true),
         (ascii "open-cursor table:t", true), (ascii "close-session", true)]).cursor ≠ none →
      (handleAll state.initial
        [(ascii "open /tmp/db", true), (ascii "open-session", true),
         (ascii "open-cursor table:t", true), (ascii "close-session", true)]).session ≠ none) := by
  refine ⟨by decide, by decide, by decide⟩

/-! ## Tabular results: lemmas -/

theorem intercalate_cons_cons {α : Type} (sep a b : List α) (xs : List (List α)) :
    List.intercalate sep (a :: b :: xs) = a ++ sep ++ List.intercalate sep (b :: xs) := by
  simp [List.intercalate, List.intersperse]

theorem intercalate_single {α : Type} (sep a : List α) :
    List.intercalate sep [a] = a := by
  simp [List.intercalate, List.intersperse]

/-- Filtering commutes with joining by a separator that the filter keeps. -/
theorem filter_intercalate {α : Type} (p : α → Bool) (s : α) (hs : p s = true) :
    ∀ xs : List (List α),
      (List.intercalate [s] xs).filter p = List.intercalate [s] (xs.map (List.filter p)) := by
  intro xs
  induction xs with
  | nil => simp [List.intercalate, List.intersperse]
  | cons a xs ih =>
    cases xs with
    | nil => simp [intercalate_single]
    | cons b xs =>
      rw [intercalate_cons_cons, List.filter_append, List.filter_append, ih]
      simp only [List.map_cons, intercalate_cons_cons, List.filter_cons, hs, if_true,
        List.filter_nil]

/-- Splitting at the elements satisfying `p` commutes with a filter that keeps them. -/
theorem splitOnP_filter {α : Type} (p q : α → Bool) (hq : ∀ x, p x = true → q x = true) :
    ∀ xs : List α, (xs.filter q).splitOnP p = (xs.splitOnP p).map (List.filter q) := by
  intro xs
  induction xs with
  | nil => simp
  | cons x xs ih =>
    obtain ⟨h, t, hM⟩ : ∃ h t, xs.splitOnP p = h :: t := by
      cases hM : xs.splitOnP p with
      | nil => exact absurd hM (List.splitOnP_ne_nil p xs)
      | cons h t => exact ⟨h, t, rfl⟩
    by_cases hqx : q x = true
    · rw [List.filter_cons_of_pos hqx, List.splitOnP_cons, List.splitOnP_cons, ih, hM]
      by_cases hpx : p x = true
      · simp [hpx]
      · simp [hpx, List.modifyHead, hqx]
    · have hpx : ¬ p x = true := fun hp => hqx (hq x hp)
      rw [List.filter_cons_of_neg hqx, List.splitOnP_cons, ih, hM]
      simp [hpx, List.modifyHead, hqx]

theorem mem_intercalate {α : Type} (sep : List α) (x : α) :
    ∀ xs : List (List α), x ∈ List.intercalate sep xs → x ∈ sep ∨ ∃ l ∈ xs, x ∈ l := by
  intro xs
  induction xs with
  | nil => intro h; simp [List.intercalate, List.intersperse] at h
  | cons a xs ih =>
    cases xs with
    | nil =>
      intro h
      rw [intercalate_single] at h
      exact Or.inr ⟨a, List.mem_cons_self _ _, h⟩
    | cons b xs =>
      intro h
      rw [intercalate_cons_cons, List.mem_append, List.mem_append] at h
      rcases h with (h | h) | h
      · exact Or.inr ⟨a, List.mem_cons_self _ _, h⟩
      · exact Or.inl h
      · rcases ih h with h | ⟨l, hl, hx⟩
        · exact Or.inl h
        · exact Or.inr ⟨l, List.mem_cons_of_mem _ hl, hx⟩

/-- `addLogSplit` appends the pieces of the split to the log, in order. -/
theorem foldl_addLog (ls : List (List Nat)) :
    ∀ m : model, ls.foldl model.addLog m = { m with messages := m.messages ++ ls } := by
  induction ls with
  | nil => intro m; simp
  | cons l ls ih =>
    intro m
    rw [List.foldl_cons, ih]
    simp [model.addLog]

/-- Without padding and cell separators a written line is the text of its cells. -/
theorem filter_renderCells (w : Nat → Int) :
    ∀ (cells : List Cell) (j : Nat),
      (renderCells w j cells).filter notBlank =
        ((cells.map Cell.text).flatten).filter notBlank := by
  intro cells
  induction cells with
  | nil => intro j; rfl
  | cons c cs ih =>
    intro j
    cases cs with
    | nil => simp [renderCells]
    | cons c1 cs =>
      have hsp : ¬ (notBlank 32 = true) := by decide
      rw [renderCells, List.filter_append, List.filter_append,
        List.filter_replicate_of_neg hsp, ih (j + 1)]
      simp

/-- The text of the cells of a line, without blanks. -/
theorem map_filter_renderLines (minwidth padding : Int) :
    ∀ (lines before : List Line),
      (renderLines minwidth padding before lines).map (List.filter notBlank) =
        lines.map fun l => ((l.cells.map Cell.text).flatten).filter notBlank := by
  intro lines
  induction lines with
  | nil => intro before; rfl
  | cons l ls ih =>
    intro before
    simp only [renderLines, List.map_cons, filter_renderCells, ih]

theorem tabwriterLines_ne_nil :
    ∀ (rest : List Nat) (esc : Bool) (nesc : Nat) (text : List Nat) (cells : List Cell),
      tabwriterLines esc nesc text cells rest ≠ [] := by
  intro rest
  induction rest with
  | nil => intro esc nesc text cells; simp [tabwriterLines]
  | cons ch rest ih =>
    intro esc nesc text cells
    cases esc <;> simp only [tabwriterLines] <;> split_ifs <;>
      first
      | exact ih _ _ _ _
      | exact List.cons_ne_nil _ _

/-- Without blanks, the lines the scanner finds, joined by newlines, are the bytes it
read: no byte is lost or invented (in the absence of form feeds, which the tabwriter
turns into newlines). -/
theorem intercalate_tabwriterLines :
    ∀ (rest : List Nat) (esc : Bool) (nesc : Nat) (text : List Nat) (cells : List Cell),
      (∀ x ∈ rest, x ≠ 12) →
      List.intercalate [10]
          ((tabwriterLines esc nesc text cells rest).map fun l =>
            ((l.cells.map Cell.text).flatten).filter notBlank) =
        ((cells.map Cell.text).flatten ++ text ++ rest).filter notBlank := by
  intro rest
  induction rest with
  | nil =>
    intro esc nesc text cells _
    by_cases ht : text.length > 0
    · simp [tabwriterLines, ht, intercalate_single, mkCell]
    · have : text = [] := by
        cases text with
        | nil => rfl
        | cons a t => simp at ht
      simp [tabwriterLines, this, intercalate_single]
  | cons ch rest ih =>
    intro esc nesc text cells h12
    have hrest : ∀ x ∈ rest, x ≠ 12 := fun x hx => h12 x (List.mem_cons_of_mem _ hx)
    have hch : ch ≠ 12 := h12 ch (List.mem_cons_self _ _)
    cases esc with
    | true =>
      simp only [tabwriterLines]
      split_ifs <;> rw [ih _ _ _ _ hrest] <;> simp
    | false =>
      simp only [tabwriterLines]
      split_ifs with h9 h11 h10 h255
      · subst h9
        rw [ih _ _ _ _ hrest]
        simp [mkCell, notBlank]
      · subst h11
        rw [ih _ _ _ _ hrest]
        simp [mkCell, notBlank]
      · have h10' : ch = 10 := by
          rcases h10 with h | h
          · exact h
          · exact absurd h hch
        subst h10'
        obtain ⟨l, ls, hl⟩ : ∃ l ls, tabwriterLines false 0 [] [] rest = l :: ls := by
          cases hM : tabwriterLines false 0 [] [] rest with
          | nil => exact absurd hM (tabwriterLines_ne_nil _ _ _ _ _)
          | cons l ls => exact ⟨l, ls, rfl⟩
        have hih := ih false 0 [] [] hrest
        rw [hl] at hih ⊢
        simp only [List.map_cons] at hih ⊢
        rw [intercalate_cons_cons, hih]
        simp [mkCell, notBlank]
      · rw [ih _ _ _ _ hrest]
        simp
      · rw [ih _ _ _ _ hrest]
        simp

/-- Without blanks, what the tabwriter writes is what was written to it. -/
theorem filter_tabwriter (minwidth padding : Int) (text : List Nat)
    (h12 : ∀ x ∈ text, x ≠ 12) :
    (tabwriter minwidth padding text).filter notBlank = text.filter notBlank := by
  unfold tabwriter
  rw [filter_intercalate notBlank 10 (by decide), map_filter_renderLines,
    intercalate_tabwriterLines text false 0 [] [] h12]
  simp

theorem filter_intercalate_tab (row : List (List Nat)) :
    (List.intercalate [9] row).filter notBlank = row.flatten.filter notBlank := by
  induction row with
  | nil => simp [List.intercalate, List.intersperse]
  | cons a row ih =>
    cases row with
    | nil => simp [intercalate_single]
    | cons b row =>
      have h9 : ¬ (notBlank 9 = true) := by decide
      rw [intercalate_cons_cons, List.filter_append, List.filter_append, ih,
        List.flatten_cons, List.filter_append, List.filter_cons_of_neg h9]
      simp

/-- The pieces of a tabular result split at newlines, without blanks, are the rows
without blanks. -/
theorem splitOn_ResultMessage_String (Rows : List (List (List Nat))) (hne : Rows ≠ [])
    (hcells : ∀ row ∈ Rows, ∀ cell ∈ row, ∀ x ∈ cell, x ≠ 10 ∧ x ≠ 12) :
    ((ResultMessage.String Rows).splitOn 10).map (List.filter notBlank) =
      Rows.map fun row => row.flatten.filter notBlank := by
  have hrow : ∀ row ∈ Rows, ∀ x ∈ List.intercalate [9] row, x ≠ 10 ∧ x ≠ 12 := by
    intro row hr x hx
    rcases mem_intercalate [9] x row hx with h | ⟨cell, hc, hxc⟩
    · have : x = 9 := by simpa using h
      subst this
      exact ⟨by decide, by decide⟩
    · exact hcells row hr cell hc x hxc
  have h12 : ∀ x ∈ List.intercalate [10] (Rows.map (List.intercalate [9])), x ≠ 12 := by
    intro x hx
    rcases mem_intercalate [10] x _ hx with h | ⟨l, hl, hxl⟩
    · have : x = 10 := by simpa using h
      subst this
      decide
    · obtain ⟨row, hr, rfl⟩ := List.mem_map.mp hl
      exact (hrow row hr x hxl).2
  have hq : ∀ x : Nat, (x == 10) = true → notBlank x = true := by
    intro x hx
    have : x = 10 := by simpa using hx
    subst this
    decide
  have hno : ∀ l ∈ (Rows.map (List.intercalate [9])).map (List.filter notBlank),
      (10 : Nat) ∉ l := by
    intro l hl h10
    obtain ⟨r, hr, rfl⟩ := List.mem_map.mp hl
    obtain ⟨row, hrow', rfl⟩ := List.mem_map.mp hr
    exact (hrow row hrow' 10 (List.mem_filter.mp h10).1).1 rfl
  have hne' : (Rows.map (List.intercalate [9])).map (List.filter notBlank) ≠ [] := by
    simpa using hne
  unfold List.splitOn ResultMessage.String
  rw [← splitOnP_filter _ notBlank hq, filter_tabwriter 10 2 _ h12,
    filter_intercalate notBlank 10 (by decide)]
  have hsplit := List.splitOn_intercalate _ 10 hno hne'
  unfold List.splitOn at hsplit
  rw [hsplit, List.map_map]
  apply List.map_congr_left
  intro row _
  exact filter_intercalate_tab row

/-! ## Tabular results: the exact lines of a result with plain cells -/

/-- The scanner reads a stretch of bytes without separators into the current cell. -/
theorem tabwriterLines_plain (c : List Nat) :
    ∀ (rest : List Nat) (nesc : Nat) (text : List Nat) (cells : List Cell),
      (∀ x ∈ c, x ≠ 9 ∧ x ≠ 10 ∧ x ≠ 11 ∧ x ≠ 12 ∧ x ≠ 255) →
      tabwriterLines false nesc text cells (c ++ rest) =
        tabwriterLines false nesc (text ++ c) cells rest := by
  induction c with
  | nil => intro rest nesc text cells _; simp
  | cons x c ih =>
    intro rest nesc text cells h
    obtain ⟨h9, h10, h11, h12, h255⟩ := h x (List.mem_cons_self _ _)
    have hc : ∀ y ∈ c, y ≠ 9 ∧ y ≠ 10 ∧ y ≠ 11 ∧ y ≠ 12 ∧ y ≠ 255 :=
      fun y hy => h y (List.mem_cons_of_mem _ hy)
    have h1012 : ¬ (x = 10 ∨ x = 12) := by
      rintro (h | h)
      · exact h10 h
      · exact h12 h
    rw [List.cons_append, tabwriterLines, if_neg h9, if_neg h11, if_neg h1012, if_neg h255,
      ih _ _ _ _ hc, List.append_assoc, List.singleton_append]

/-- The scanner on a row of plain cells joined by tabs: the cells but the last become
tab-terminated cells of the line, the last one is left as the current cell. -/
theorem tabwriterLines_row (row : List (List Nat)) :
    ∀ (rest : List Nat) (cells : List Cell),
      (∀ c ∈ row, ∀ x ∈ c, x ≠ 9 ∧ x ≠ 10 ∧ x ≠ 11 ∧ x ≠ 12 ∧ x ≠ 255) →
      tabwriterLines false 0 [] cells (List.intercalate [9] row ++ rest) =
        tabwriterLines false 0 (row.getLastD [])
          (cells ++ row.dropLast.map (fun c => mkCell c 0 true)) rest := by
  induction row with
  | nil =>
    intro rest cells _
    simp [List.intercalate, List.intersperse]
  | cons c row ih =>
    intro rest cells h
    have hc := h c (List.mem_cons_self _ _)
    cases row with
    | nil =>
      rw [intercalate_single, tabwriterLines_plain c rest 0 [] cells hc]
      simp
    | cons c1 row =>
      have hrow : ∀ d ∈ c1 :: row, ∀ x ∈ d, x ≠ 9 ∧ x ≠ 10 ∧ x ≠ 11 ∧ x ≠ 12 ∧ x ≠ 255 :=
        fun d hd => h d (List.mem_cons_of_mem _ hd)
      rw [intercalate_cons_cons, List.append_assoc, List.append_assoc,
        tabwriterLines_plain c _ 0 [] cells hc, List.singleton_append, tabwriterLines,
        if_pos rfl, ih _ _ hrow]
      simp [List.getLastD_cons]

/-- The scanner on a result of plain cells finds one line per row, with the cells of the
row. -/
theorem tabwriterLines_rows (Rows : List (List (List Nat))) (hne : Rows ≠ [])
    (hplain : ∀ row ∈ Rows, ∀ c ∈ row, ∀ x ∈ c,
      x ≠ 9 ∧ x ≠ 10 ∧ x ≠ 11 ∧ x ≠ 12 ∧ x ≠ 255)
    (hlast : ∀ row, Rows.getLast? = some row → row.getLastD [] ≠ []) :
    tabwriterLines false 0 [] [] (List.intercalate [10] (Rows.map (List.intercalate [9]))) =
      Rows.map rowLine := by
  induction Rows with
  | nil => exact absurd rfl hne
  | cons row Rows ih =>
    have hr := hplain row (List.mem_cons_self _ _)
    cases Rows with
    | nil =>
      have hl : row.getLastD [] ≠ [] := hlast row rfl
      have hlen : (row.getLastD []).length > 0 := List.length_pos.mpr hl
      have h := tabwriterLines_row row [] [] hr
      rw [List.append_nil] at h
      simp only [List.map_cons, List.map_nil, intercalate_single, h, tabwriterLines, hlen,
        if_true, rowLine, List.nil_append, Bool.false_eq_true, if_false]
    | cons row1 Rows =>
      have hrest : ∀ r ∈ row1 :: Rows, ∀ c ∈ r, ∀ x ∈ c,
          x ≠ 9 ∧ x ≠ 10 ∧ x ≠ 11 ∧ x ≠ 12 ∧ x ≠ 255 :=
        fun r hr' => hplain r (List.mem_cons_of_mem _ hr')
      have hlast' : ∀ r, (row1 :: Rows).getLast? = some r → r.getLastD [] ≠ [] := by
        intro r hr'
        exact hlast r (by rw [List.getLast?_cons_cons]; exact hr')
      have hih := ih (List.cons_ne_nil _ _) hrest hlast'
      have h1012 : ((10 : Nat) = 10 ∨ (10 : Nat) = 12) := Or.inl rfl
      simp only [List.map_cons] at hih ⊢
      rw [intercalate_cons_cons, List.append_assoc, tabwriterLines_row row _ [] hr,
        List.singleton_append, tabwriterLines, if_neg (by decide), if_neg (by decide),
        if_pos h1012, hih]
      simp [rowLine]

theorem foldl_max_le_iff {α : Type} (g : α → Int) :
    ∀ (L : List α) (a z : Int),
      L.foldl (fun w x => max w (g x)) a ≤ z ↔ a ≤ z ∧ ∀ x ∈ L, g x ≤ z := by
  intro L
  induction L with
  | nil => intro a z; simp
  | cons y L ih =>
    intro a z
    rw [List.foldl_cons, ih, max_le_iff]
    constructor
    · rintro ⟨⟨ha, hy⟩, hL⟩
      refine ⟨ha, fun x hx => ?_⟩
      rcases List.mem_cons.mp hx with rfl | hx
      · exact hy
      · exact hL x hx
    · rintro ⟨ha, hL⟩
      exact ⟨⟨ha, hL y (List.mem_cons_self _ _)⟩,
        fun x hx => hL x (List.mem_cons_of_mem _ hx)⟩

/-- A running maximum depends only on which elements the list has. -/
theorem foldl_max_congr_mem {α : Type} (g : α → Int) (L1 L2 : List α) (a : Int)
    (h : ∀ x, x ∈ L1 ↔ x ∈ L2) :
    L1.foldl (fun w x => max w (g x)) a = L2.foldl (fun w x => max w (g x)) a := by
  apply le_antisymm
  · rw [foldl_max_le_iff]
    have h2 := (foldl_max_le_iff g L2 a _).mp (le_refl _)
    exact ⟨h2.1, fun x hx => h2.2 x ((h x).mp hx)⟩
  · rw [foldl_max_le_iff]
    have h1 := (foldl_max_le_iff g L1 a _).mp (le_refl _)
    exact ⟨h1.1, fun x hx => h1.2 x ((h x).mpr hx)⟩

theorem blockBefore_all (j : Nat) :
    ∀ before : List Line, (∀ l ∈ before, l.ff = false ∧ hasColumn j l = true) →
      blockBefore j before = before := by
  intro before
  induction before with
  | nil => intro _; rfl
  | cons l ls ih =>
    intro h
    obtain ⟨hff, hcol⟩ := h l (List.mem_cons_self _ _)
    simp only [blockBefore, hff, hcol, if_true, Bool.false_eq_true, if_false,
      ih fun x hx => h x (List.mem_cons_of_mem _ hx)]

theorem blockAfter_all (j : Nat) :
    ∀ after : List Line, (∀ l ∈ after, l.ff = false ∧ hasColumn j l = true) →
      blockAfter j after = after := by
  intro after
  induction after with
  | nil => intro _; rfl
  | cons l ls ih =>
    intro h
    obtain ⟨hff, hcol⟩ := h l (List.mem_cons_self _ _)
    simp only [blockAfter, hff, hcol, if_true, Bool.false_eq_true, if_false,
      ih fun x hx => h x (List.mem_cons_of_mem _ hx)]

theorem rowLine_hasColumn (row : List (List Nat)) (m j : Nat) (hm : row.length = m)
    (hj : j + 1 < m) : hasColumn j (rowLine row) = true := by
  simp only [hasColumn, rowLine, List.length_append, List.length_map, List.length_dropLast,
    List.length_singleton, decide_eq_true_eq]
  omega

theorem rowLine_cellWidthAt (row : List (List Nat)) (m j : Nat) (hm : row.length = m)
    (hj : j + 1 < m) :
    cellWidthAt j (rowLine row) = (RuneCountInString (row.getD j []) : Int) := by
  have hlt : j < (row.dropLast.map fun c => mkCell c 0 true).length := by
    simp only [List.length_map, List.length_dropLast]
    omega
  have hlt2 : j < row.length := by omega
  have hlt3 : j < row.dropLast.length := by
    simp only [List.length_dropLast]
    omega
  have hget : row.dropLast[j] = row[j] := by
    simp [List.dropLast_eq_take]
  have hcell : (row.dropLast.map (fun c => mkCell c 0 true) ++
      [mkCell (row.getLastD []) 0 false])[j]? = some (mkCell row[j] 0 true) := by
    rw [List.getElem?_append_left hlt, List.getElem?_eq_getElem hlt, List.getElem_map, hget]
  have hD : row.getD j [] = row[j] := by
    rw [List.getD_eq_getElem?_getD, List.getElem?_eq_getElem hlt2, Option.getD_some]
  unfold cellWidthAt rowLine
  dsimp only
  rw [hcell, hD]
  simp only [mkCell, Nat.cast_zero, mul_zero, sub_zero]

/-- The width the tabwriter gives column `j` over rows of equal length is
`resultColumnWidth`. -/
theorem foldl_rowLine_width (m j : Nat) (hj : j + 1 < m) :
    ∀ (Rows : List (List (List Nat))) (a : Nat), (∀ row ∈ Rows, row.length = m) →
      (Rows.map rowLine).foldl (fun w x => max w (cellWidthAt j x + 2)) (a : Int) =
        ((Rows.foldl (fun w r => max w (RuneCountInString (r.getD j []) + 2)) a : Nat) : Int) := by
  intro Rows
  induction Rows with
  | nil => intro a _; rfl
  | cons row Rows ih =>
    intro a h
    have hrow := h row (List.mem_cons_self _ _)
    rw [List.map_cons, List.foldl_cons, List.foldl_cons,
      rowLine_cellWidthAt row m j hrow hj,
      ← ih _ fun r hr => h r (List.mem_cons_of_mem _ hr)]
    congr 1
    push_cast
    rfl

/-- In a result whose rows all have `m` cells, the width of column `j` at any line is
`resultColumnWidth` of the whole result. -/
theorem columnWidth_rows (m j : Nat) (hj : j + 1 < m) (pre post : List (List (List Nat)))
    (row : List (List Nat))
    (h : ∀ r ∈ pre ++ row :: post, r.length = m) :
    columnWidth 10 2 (pre.map rowLine).reverse (post.map rowLine) (rowLine row) j =
      (resultColumnWidth (pre ++ row :: post) j : Int) := by
  have hbefore : ∀ l ∈ (pre.map rowLine).reverse, l.ff = false ∧ hasColumn j l = true := by
    intro l hl
    obtain ⟨r, hr, rfl⟩ := List.mem_map.mp (List.mem_reverse.mp hl)
    exact ⟨rfl, rowLine_hasColumn r m j (h r (List.mem_append_left _ hr)) hj⟩
  have hafter : ∀ l ∈ post.map rowLine, l.ff = false ∧ hasColumn j l = true := by
    intro l hl
    obtain ⟨r, hr, rfl⟩ := List.mem_map.mp hl
    exact ⟨rfl, rowLine_hasColumn r m j
      (h r (List.mem_append_right _ (List.mem_cons_of_mem _ hr))) hj⟩
  have hff : (rowLine row).ff = false := rfl
  have hmem : ∀ x, x ∈ (pre.map rowLine).reverse ++ rowLine row :: post.map rowLine ↔
      x ∈ (pre ++ row :: post).map rowLine := by
    intro x
    simp only [List.mem_append, List.mem_reverse, List.mem_cons, List.map_append,
      List.map_cons]
  have hcast := foldl_rowLine_width m j hj (pre ++ row :: post) 10 h
  simp only [Nat.cast_ofNat] at hcast
  rw [columnWidth, blockBefore_all j _ hbefore, hff]
  simp only [Bool.false_eq_true, if_false]
  rw [blockAfter_all j _ hafter, foldl_max_congr_mem _ _ _ _ hmem, hcast, resultColumnWidth]

/-- The cells of a row as written: every cell but the last padded to the width of its
column. -/
theorem renderCells_row (w : Nat → Int) (W : Nat → Nat) (last : List Nat) :
    ∀ (cs : List (List Nat)) (j : Nat),
      (∀ k, j ≤ k → k < j + cs.length → w k = (W k : Int)) →
      renderCells w j (cs.map (fun c => mkCell c 0 true) ++ [mkCell last 0 false]) =
        ((cs.enumFrom j).flatMap fun jc =>
            jc.2 ++ List.replicate (W jc.1 - RuneCountInString jc.2) 32) ++ last := by
  intro cs
  induction cs with
  | nil =>
    intro j _
    simp [renderCells, mkCell]
  | cons c cs ih =>
    intro j hw
    obtain ⟨d, ds, hd⟩ : ∃ d ds,
        cs.map (fun c => mkCell c 0 true) ++ [mkCell last 0 false] = d :: ds := by
      cases cs with
      | nil => exact ⟨_, _, rfl⟩
      | cons c1 cs => exact ⟨_, _, rfl⟩
    have hwj : w j = (W j : Int) := hw j (Nat.le_refl _) (by simp)
    have hpad : (w j - (mkCell c 0 true).width).toNat = W j - RuneCountInString c := by
      simp only [mkCell, hwj]
      omega
    have hih := ih (j + 1) (fun k hk1 hk2 => hw k (by omega) (by simp only [List.length_cons]; omega))
    rw [List.map_cons, List.cons_append, hd, renderCells, ← hd, hih, hpad]
    simp [mkCell]

/-- The lines of a result whose rows all have `m >= 1` plain cells, as written. -/
theorem renderLines_rows (m : Nat) :
    ∀ (post pre : List (List (List Nat))), (∀ r ∈ pre ++ post, r.length = m) →
      renderLines 10 2 (pre.map rowLine).reverse (post.map rowLine) =
        post.map (resultLine (pre ++ post)) := by
  intro post
  induction post with
  | nil => intro pre _; rfl
  | cons row post ih =>
    intro pre h
    have hrow : row.length = m := h row (by simp)
    have hhead : renderCells
        (columnWidth 10 2 (pre.map rowLine).reverse (post.map rowLine) (rowLine row)) 0
        (rowLine row).cells = resultLine (pre ++ row :: post) row := by
      have := renderCells_row
        (columnWidth 10 2 (pre.map rowLine).reverse (post.map rowLine) (rowLine row))
        (resultColumnWidth (pre ++ row :: post)) (row.getLastD []) row.dropLast 0
        (fun k _ hk => columnWidth_rows m k
          (by simp only [List.length_dropLast] at hk; omega) pre post row h)
      simpa [rowLine, resultLine, List.enum] using this
    have hpre : (rowLine row :: (pre.map rowLine).reverse) =
        ((pre ++ [row]).map rowLine).reverse := by simp
    have hih := ih (pre ++ [row]) (by simpa using h)
    simp only [List.append_assoc, List.singleton_append] at hih
    rw [List.map_cons, renderLines, hhead, hpre, hih, List.map_cons]

theorem mem_resultLine (Rows : List (List (List Nat))) (row : List (List Nat)) (x : Nat)
    (hx : x ∈ resultLine Rows row) : x = 32 ∨ ∃ c ∈ row, x ∈ c := by
  unfold resultLine at hx
  rcases List.mem_append.mp hx with h | h
  · obtain ⟨jc, hjc, hxjc⟩ := List.mem_flatMap.mp h
    rcases List.mem_append.mp hxjc with h1 | h1
    · have hmem : jc.2 ∈ row.dropLast := by
        obtain ⟨j, c⟩ := jc
        have h3 := (List.mem_enumFrom hjc).2.2
        show c ∈ row.dropLast
        rw [h3]
        apply List.getElem_mem
      exact Or.inr ⟨jc.2, List.dropLast_subset _ hmem, h1⟩
    · exact Or.inl (List.eq_of_mem_replicate h1)
  · cases row with
    | nil => simp at h
    | cons c cs =>
      have hl : (c :: cs).getLastD [] ∈ c :: cs := by
        rw [List.getLastD_eq_getLast?, List.getLast?_eq_getLast _ (List.cons_ne_nil _ _)]
        exact List.getLast_mem _
      exact Or.inr ⟨_, hl, h⟩

/-- Split at newlines, a result whose rows all have `m >= 1` plain cells gives back its
rows as written by the tabwriter. -/
theorem splitOn_ResultMessage_String_rows (Rows : List (List (List Nat))) (m : Nat)
    (hne : Rows ≠ []) (hshape : ∀ row ∈ Rows, row.length = m)
    (hplain : ∀ row ∈ Rows, ∀ c ∈ row, ∀ x ∈ c,
      x ≠ 9 ∧ x ≠ 10 ∧ x ≠ 11 ∧ x ≠ 12 ∧ x ≠ 255)
    (hlast : ∀ row, Rows.getLast? = some row → row.getLastD [] ≠ []) :
    (ResultMessage.String Rows).splitOn 10 = Rows.map (resultLine Rows) := by
  have hlines := renderLines_rows m Rows [] (by simpa using hshape)
  simp only [List.map_nil, List.reverse_nil, List.nil_append] at hlines
  have hno : ∀ l ∈ Rows.map (resultLine Rows), (10 : Nat) ∉ l := by
    intro l hl h10
    obtain ⟨row, hrow, rfl⟩ := List.mem_map.mp hl
    rcases mem_resultLine Rows row 10 h10 with h | ⟨c, hc, hxc⟩
    · exact absurd h (by decide)
    · exact (hplain row hrow c hc 10 hxc).2.1 rfl
  unfold ResultMessage.String tabwriter
  rw [tabwriterLines_rows Rows hne hplain hlast, hlines]
  exact List.splitOn_intercalate _ 10 hno (by simpa using hne)

/-! ## Tabular results: the claim -/

/-- C13 (as stated, fails).  The claim says a result appends exactly `len(Rows)` lines
when no cell contains a newline, none for zero rows.  A result with zero rows appends one
empty line (`strings.Split("", "\n")` is `[""]`), and a single row whose one cell holds a
form feed appends two lines (the tabwriter ends a line at a form feed). -/
theorem HandleMessage_result_line_count_fails :
    (idleProgram.HandleMessage (.ResultMessage [])).model.messages = [[]] ∧
    (idleProgram.HandleMessage (.ResultMessage [])).model.messages.length ≠
      idleProgram.model.messages.length + ([] : List (List (List Nat))).length ∧
    (idleProgram.HandleMessage (.ResultMessage [[[107, 12, 118]]])).model.messages =
      [[107], [118]] := by
  refine ⟨by decide, by decide, by decide⟩

/-- C13 (amended).  For a tabular result with at least one row whose cells contain
neither a newline nor a form feed, `HandleMessage` appends exactly `len(Rows)` lines
after the lines already in the log, which stay as they are, one per row in row order:
each line agrees with its row once tabs, vertical tabs and spaces are removed from both.
When moreover all rows have the same number of cells, no cell contains a tab, a vertical
tab or the byte `0xFF`, and the last cell of the last row is not empty, the line of a row
is exactly `resultLine`: each cell but the last followed by spaces up to the column
width, the largest rune count in the column plus 2 and at least 10, then the last cell.
For the rows `k1, v1` and `key2, value2` the lines are `k1`, 8 spaces, `v1` and `key2`,
6 spaces, `value2`; a cell `é` (2 bytes, 1 rune) is followed by 9 spaces. -/
theorem HandleMessage_result (p : Program) (Rows : List (List (List Nat)))
    (hne : Rows ≠ [])
    (hcells : ∀ row ∈ Rows, ∀ cell ∈ row, ∀ x ∈ cell, x ≠ 10 ∧ x ≠ 12) :
    (∃ lines : List (List Nat),
      (p.HandleMessage (.ResultMessage Rows)).model.messages = p.model.messages ++ lines ∧
      lines.length = Rows.length ∧
      lines.map (List.filter notBlank) = (Rows.map fun row => row.flatten.filter notBlank) ∧
      (∀ m : Nat, (∀ row ∈ Rows, row.length = m) →
        (∀ row ∈ Rows, ∀ cell ∈ row, ∀ x ∈ cell, x ≠ 9 ∧ x ≠ 11 ∧ x ≠ 255) →
        (∀ row, Rows.getLast? = some row → row.getLastD [] ≠ []) →
        lines = Rows.map (resultLine Rows))) ∧
    (idleProgram.HandleMessage
        (.ResultMessage [[[107, 49], [118, 49]], [[107, 101, 121, 50],
          [118, 97, 108, 117, 101, 50]]])).model.messages =
      [[107, 49, 32, 32, 32, 32, 32, 32, 32, 32, 118, 49],
       [107, 101, 121, 50, 32, 32, 32, 32, 32, 32, 118, 97, 108, 117, 101, 50]] ∧
    (idleProgram.HandleMessage (.ResultMessage [[[195, 169], [120]]])).model.messages =
      [[195, 169, 32, 32, 32, 32, 32, 32, 32, 32, 32, 120]] := by
  have h := splitOn_ResultMessage_String Rows hne hcells
  refine ⟨⟨(ResultMessage.String Rows).splitOn 10, ?_, ?_, h, ?_⟩, by decide, by decide⟩
  · simp only [Program.HandleMessage, invalidate_eq, model.addLogSplit, foldl_addLog]
  · have hl := congrArg List.length h
    simpa using hl
  · intro m hshape hplain hlast
    refine splitOn_ResultMessage_String_rows Rows m hne hshape ?_ hlast
    intro row hrow c hc x hx
    obtain ⟨h10, h12⟩ := hcells row hrow c hc x hx
    obtain ⟨h9, h11, h255⟩ := hplain row hrow c hc x hx
    exact ⟨h9, h10, h11, h12, h255⟩

theorem HandleMessage_result_witness :
    (([[[107, 49], [118, 49]], [[107, 101, 121, 50], [118, 50]]] :
        List (List (List Nat))) ≠ [] ∧
      ∀ row ∈ ([[[107, 49], [118, 49]], [[107, 101, 121, 50], [118, 50]]] :
        List (List (List Nat))), ∀ cell ∈ row, ∀ x ∈ cell, x ≠ 10 ∧ x ≠ 12) ∧
    ((∃ lines : List (List Nat),
      (idleProgram.HandleMessage
          (.ResultMessage [[[107, 49], [118, 49]], [[107, 101, 121, 50], [118, 50]]])
        ).model.messages = idleProgram.model.messages ++ lines ∧
      lines.length =
        ([[[107, 49], [118, 49]], [[107, 101, 121, 50], [118, 50]]] :
          List (List (List Nat))).length ∧
      lines.map (List.filter notBlank) =
        (([[[107, 49], [118, 49]], [[107, 101, 121, 50], [118, 50]]] :
          List (List (List Nat))).map fun row => row.flatten.filter notBlank) ∧
      (∀ m : Nat,
        (∀ row ∈ ([[[107, 49], [118, 49]], [[107, 101, 121, 50], [118, 50]]] :
          List (List (List Nat))), row.length = m) →
        (∀ row ∈ ([[[107, 49], [118, 49]], [[107, 101, 121, 50], [118, 50]]] :
          List (List (List Nat))), ∀ cell ∈ row, ∀ x ∈ cell, x ≠ 9 ∧ x ≠ 11 ∧ x ≠ 255) →
        (∀ row, ([[[107, 49], [118, 49]], [[107, 101, 121, 50], [118, 50]]] :
          List (List (List Nat))).getLast? = some row → row.getLastD [] ≠ []) →
        lines =
          ([[[107, 49], [118, 49]], [[107, 101, 121, 50], [118, 50]]] :
            List (List (List Nat))).map
            (resultLine [[[107, 49], [118, 49]], [[107, 101, 121, 50], [118, 50]]]))) ∧
    (idleProgram.HandleMessage
        (.ResultMessage [[[107, 49], [118, 49]], [[107, 101, 121, 50],
          [118, 97, 108, 117, 101, 50]]])).model.messages =
      [[107, 49, 32, 32, 32, 32, 32, 32, 32, 32, 118, 49],
       [107, 101, 121, 50, 32, 32, 32, 32, 32, 32, 118, 97, 108, 117, 101, 50]] ∧
    (idleProgram.HandleMessage (.ResultMessage [[[195, 169], [120]]])).model.messages =
      [[195, 169, 32, 32, 32, 32, 32, 32, 32, 32, 32, 120]]) :=
  ⟨by decide,
   HandleMessage_result idleProgram [[[107, 49], [118, 49]], [[107, 101, 121, 50], [118, 50]]]
     (by decide) (by decide)⟩

end Wtsh
